import Mathlib

/-!
Verification of the meta.json generator (webpack plugin `WBMetaJsonGeneratorPlugin`).

The JavaScript source in `src/index.js` is shallowly embedded here:
JS strings become `String` (with the character list `String.data` used for
the splitting / scanning primitives), the flat `compilation.assets` object
becomes an ordered association list `List (String × String)` (JS objects
iterate string keys in insertion order), and the mutable directory tree
becomes the inductive type `Dir` updated functionally.
-/

namespace MetaGen

/-! ### JavaScript string primitives -/

/-- Model of JS `String.prototype.includes`: substring containment. -/
def includesL (s pat : List Char) : Bool := decide (pat <:+: s)

/-- `includesS s pat` is JS `s.includes(pat)`. -/
def includesS (s pat : String) : Bool := includesL s.data pat.data

/-- Split at the first occurrence of `pat`: returns the text before and the
text after the occurrence, or `none` when `pat` does not occur.
(For `pat = []` it reports a match at position 0, like JS `indexOf`.) -/
def splitFirst (pat : List Char) : List Char → Option (List Char × List Char)
  | [] => none
  | c :: rest =>
    if pat <+: (c :: rest) then some ([], (c :: rest).drop pat.length)
    else match splitFirst pat rest with
      | some (b, a) => some (c :: b, a)
      | none => none

/-- Fueled worker for `jsSplit`; the fuel only serves termination, see
`jsSplit_eq` for the natural unfolding. -/
def jsSplitF (pat : List Char) : Nat → List Char → List (List Char)
  | 0, cs => [cs]
  | fuel + 1, cs =>
    match splitFirst pat cs with
    | none => [cs]
    | some (b, a) => b :: jsSplitF pat fuel a

/-- Model of JS `String.prototype.split` for a nonempty separator:
repeatedly cut at the leftmost occurrence. -/
def jsSplit (pat cs : List Char) : List (List Char) := jsSplitF pat (cs.length + 1) cs

/-- `jsSplitS s sep` is JS `s.split(sep)` (for nonempty `sep`, the only way
the source uses it). -/
def jsSplitS (s sep : String) : List String := (jsSplit sep.data s.data).map String.mk

/-- Whitespace in the sense of JS `String.prototype.trim` (the ASCII cases,
which are the only ones arising from the sources). -/
def jsIsWs (c : Char) : Bool :=
  c == ' ' || c == '\t' || c == '\n' || c == '\r' || c == '\x0b' || c == '\x0c'

/-- JS `trim` on character lists. -/
def jsTrimL (cs : List Char) : List Char :=
  ((cs.dropWhile jsIsWs).reverse.dropWhile jsIsWs).reverse

/-- Model of JS `String.prototype.trim`. -/
def jsTrimS (s : String) : String := String.mk (jsTrimL s.data)

/-- Model of JS `String.prototype.replace` with a plain (nonempty) string
pattern and empty replacement: remove the first occurrence, if any. -/
def removeFirstOcc (pat : List Char) : List Char → List Char
  | [] => []
  | c :: rest =>
    if pat <+: (c :: rest) then (c :: rest).drop pat.length
    else c :: removeFirstOcc pat rest

/-- Split a character list at its last `'.'`: returns the part before and
after that dot, or `none` when there is no dot. -/
def lastDotSplit : List Char → Option (List Char × List Char)
  | [] => none
  | c :: rest =>
    match lastDotSplit rest with
    | some (b, a) => some (c :: b, a)
    | none => if c = '.' then some ([], rest) else none

/-- Model of `fileName.replace(/\.[^/.]+$/, "")` (src/index.js line 17): the
regex matches a final dot followed by one or more characters that are
neither `/` nor `.`; such a match necessarily starts at the last dot. -/
def stripExtL (cs : List Char) : List Char :=
  match lastDotSplit cs with
  | some (b, a) => if a ≠ [] ∧ ∀ c ∈ a, c ≠ '/' ∧ c ≠ '.' then b else cs
  | none => cs

/-- Case-insensitive test for an embedded `http://` or `https://`, modelling
`/(http(s?)):\/\//i.test s` (src/index.js lines 327 and 381). -/
def httpUrlTest (s : String) : Bool :=
  includesL (s.data.map Char.toLower) "http://".data ||
    includesL (s.data.map Char.toLower) "https://".data

/-! ### Data model -/

/-- A file entry pushed into a directory node (src/index.js lines 221-226). -/
structure FileObject where
  fileName : String
  description : String
deriving DecidableEq, Repr

/-- A folder entry as consumed by `getFolderScripts` (src/index.js 129-134). -/
structure FolderObject where
  folderName : String
  description : String
deriving DecidableEq, Repr

/-- One element of the configured `folderDescriptionList`, with the
`distIconPath` field that `getFolderIconsInfo` adds for local icons.  Fields
the operator omitted are modelled as `""` (JS `undefined` read into a
string-typed slot that downstream code only compares for truthiness). -/
structure FolderAnnotation where
  path : String
  description : String
  iconPath : String
  distIconPath : String
  defaultAction : String
deriving DecidableEq, Repr

/-- The directory tree built by `generateDirectoryObject`
(src/index.js lines 170-229).  `folders` is the insertion-ordered map of JS
object keys.  The root-only `sites` field is omitted: it is threaded into
`getMetaJsonContent` by the source but never used there. -/
inductive Dir where
  | mk (files : List FileObject) (folders : List (String × Dir))
       (parentPath : String) (description : String)
       (defaultAction : String) (icon : String)

def Dir.files : Dir → List FileObject
  | .mk fs _ _ _ _ _ => fs

def Dir.folders : Dir → List (String × Dir)
  | .mk _ fl _ _ _ _ => fl

def Dir.parentPath : Dir → String
  | .mk _ _ pp _ _ _ => pp

def Dir.description : Dir → String
  | .mk _ _ _ de _ _ => de

def Dir.defaultAction : Dir → String
  | .mk _ _ _ _ da _ => da

def Dir.icon : Dir → String
  | .mk _ _ _ _ _ ic => ic

/-- One emitted meta.json document: where to write it and its text
(src/index.js lines 142-145). -/
structure MetaInfo where
  path : String
  content : String
deriving DecidableEq, Repr

/-! ### ECMAScript own-property enumeration order -/

/-- The numeric value of a decimal digit string. -/
def decValue (cs : List Char) : Nat :=
  cs.foldl (fun n c => 10 * n + (c.toNat - '0'.toNat)) 0

/-- Whether `s` is a canonical ECMAScript array index: the shortest decimal
numeral (no leading zero except `"0"` itself) of an integer
`0 ≤ n < 2^32 - 1`.  `Object.keys` lists such keys first, in ascending
numeric order, before all other own keys. -/
def isArrayIndexKey (s : String) : Bool :=
  match s.data with
  | [] => false
  | c :: rest =>
    (decide ('0' ≤ c) && decide (c ≤ '9')) &&
      rest.all (fun x => decide ('0' ≤ x) && decide (x ≤ '9')) &&
      (decide (c ≠ '0') || decide (rest = [])) &&
      decide (decValue s.data < 4294967295)

/-- The numeric value of an array-index key. -/
def keyNum (s : String) : Nat := decValue s.data

/-- Insert one entry into a list of entries kept ascending by `keyNum`. -/
def insertIdxEntry (e : String × Dir) : List (String × Dir) → List (String × Dir)
  | [] => [e]
  | f :: rest =>
    if keyNum e.1 ≤ keyNum f.1 then e :: f :: rest else f :: insertIdxEntry e rest

/-- Insertion sort of entries by ascending `keyNum`. -/
def sortIdxEntries : List (String × Dir) → List (String × Dir)
  | [] => []
  | e :: rest => insertIdxEntry e (sortIdxEntries rest)

/-- The enumeration order of `Object.keys(dirObject.folders)`
(src/index.js line 129) on the insertion-ordered entry list: canonical
array-index keys first in ascending numeric order, then the remaining keys
in insertion order. -/
def jsObjKeys (fl : List (String × Dir)) : List (String × Dir) :=
  sortIdxEntries (fl.filter (fun e => isArrayIndexKey e.1)) ++
    fl.filter (fun e => !isArrayIndexKey e.1)

/-! ### Document rendering (src/index.js lines 16-98) -/

/-- `getFileScripts` (src/index.js lines 16-24), with the template literal's
exact whitespace. -/
def getFileScripts (fileObject : FileObject) : String :=
  let fileWithoutExt := String.mk (stripExtL fileObject.fileName.data)
  "\x7b\n\t  \"name\": \"" ++ fileWithoutExt ++ "\",\n\t  \"file\": \"" ++ fileObject.fileName ++
    "\",\n\t  \"type\": \"action\",\n\t  \"description\": \"" ++ fileObject.description ++ "\"\n\t\x7d"

/-- `getFolderScripts` (src/index.js lines 35-42). -/
def getFolderScripts (folderObject : FolderObject) : String :=
  "\x7b\n\t  \"name\": \"" ++ folderObject.folderName ++ "\",\n\t  \"file\": \"" ++
    folderObject.folderName ++ "\",\n\t  \"type\": \"folder\",\n\t  \"description\": \"" ++
    folderObject.description ++ "\"\n\t\x7d"

/-- `getMetaScripts` (src/index.js lines 53-70): files whose name contains
`.json` are dropped, every script is pushed with a trailing comma, and
`slice(0, -1)` removes the final character of the accumulated text. -/
def getMetaScripts (dirFiles : List FileObject) (dirFolders : List FolderObject) : String :=
  let scripts :=
    (dirFiles.filter (fun fileObject => !includesS fileObject.fileName ".json")).map getFileScripts
      ++ dirFolders.map getFolderScripts
  let scriptContent := "[" ++ String.join (scripts.map (fun script => script ++ ","))
  String.mk scriptContent.data.dropLast ++ "]"

/-- `getMetaJsonContent` (src/index.js lines 85-98).  The JS function also
receives `sites` but never reads it, so that argument is not modelled.
`if (icon)` is JS truthiness on a string: non-empty. -/
def getMetaJsonContent (dirFiles : List FileObject) (dirFolders : List FolderObject)
    (dirName dirDesc defaultAction icon : String) : String :=
  let scriptsContent := getMetaScripts dirFiles dirFolders
  let content := "\x7b\n\t\t\"name\": \"" ++ dirName ++ "\",\n\t\t\"description\": \"" ++ dirDesc ++
    "\",\n\t\t\"defaultAction\": \"" ++ defaultAction ++ "\","
  let content := if icon ≠ "" then content ++ "\n\t\t\"icon\": \"" ++ icon ++ "\"," else content
  content ++ "\n\t\t\"scripts\": " ++ scriptsContent ++ "\n\t\x7d"

mutual
/-- Fuel that strictly dominates the recursion of `generateMetaJson`. -/
def genFuel : Dir → Nat
  | .mk _ folders _ _ _ _ => 1 + genFuelFolders folders

/-- Fuel that strictly dominates the recursion of the folder loop. -/
def genFuelFolders : List (String × Dir) → Nat
  | [] => 1
  | (_, sub) :: rest => 1 + genFuel sub + genFuelFolders rest
end

mutual
/-- Fueled worker for `generateMetaJson` (src/index.js lines 123-153).  The
termination check `!dirObject.files && !dirObject.folders` is always false
for the objects the tree builder produces (both fields are always
arrays/objects, and `[]` and `\x7b\x7d` are truthy), so it does not appear in the
model.  `folderObjects` is built from `Object.keys(dirObject.folders)`
(line 129), i.e. in `jsObjKeys` enumeration order, and the `while`/`pop`
loop visits that array from its end.  The fuel only serves termination; see
`generateMetaJson_eq`. -/
def generateMetaJsonF : Nat → Dir → String → List MetaInfo
  | 0, _, _ => []
  | fuel + 1, Dir.mk files folders parentPath dirDesc defaultAction icon, dirName =>
    let folderEntries := jsObjKeys folders
    let folderObjects := folderEntries.map (fun p => FolderObject.mk p.1 p.2.description)
    let metaJsonContent := getMetaJsonContent files folderObjects dirName dirDesc defaultAction icon
    ⟨parentPath, metaJsonContent⟩ :: generateMetaJsonFoldersF fuel folderEntries

/-- Fueled worker for the `while (folderObjects.length > 0) { ... pop() ... }`
loop of `generateMetaJson`: the last enumerated folder is recursed into
first.  With unique keys, `dirObject.folders[currentFolderObject.folderName]`
is the entry's own subtree. -/
def generateMetaJsonFoldersF : Nat → List (String × Dir) → List MetaInfo
  | 0, _ => []
  | _ + 1, [] => []
  | fuel + 1, (folderName, sub) :: rest =>
    generateMetaJsonFoldersF fuel rest ++ generateMetaJsonF fuel sub folderName
end

/-- `generateMetaJson` (src/index.js lines 123-153): the fueled worker at
always-sufficient fuel (`genFuel` strictly dominates every recursive call;
see `generateMetaJson_eq`, `generateMetaJsonFolders_cons`). -/
def generateMetaJson (d : Dir) (nm : String) : List MetaInfo :=
  generateMetaJsonF (genFuel d) d nm

/-- The folder loop of `generateMetaJson` at always-sufficient fuel. -/
def generateMetaJsonFolders (fl : List (String × Dir)) : List MetaInfo :=
  generateMetaJsonFoldersF (genFuelFolders fl) fl

/-! ### Per-file annotation extraction (src/index.js lines 242-273) -/

/-- `isValidFile` (src/index.js lines 242-250).  The JS function receives the
assets object and a file name and reads `assets[fileName].source()`; here the
content is passed directly. -/
def isValidFile (content fileName : String) : Bool :=
  if ["gif", "svg", "jpeg", "jpg", "png", "PNG", "json"].any
      (fun ext => decide (("." ++ ext).data <:+ fileName.data)) then
    false
  else
    ((jsSplitS content "\n").filter (fun line => includesS line "@ignore")).length == 0

/-- `getFileDescription` (src/index.js lines 261-273). -/
def getFileDescription (fileContent environment : String) : String :=
  let descriptionComment :=
    (jsSplitS fileContent "\n").filter (fun line => includesS line "@description")
  let description :=
    if environment = "production" then
      match descriptionComment with
      | [] => ""
      | line :: _ => (jsSplitS line "@description").getLastD ""
    else
      match descriptionComment with
      | [] => ""
      | line :: _ =>
        let descriptionToken :=
          ((jsSplitS line "\\n").filter (fun token => includesS token "@description")).map
            (fun val => String.mk (removeFirstOcc "\\r".data val.data))
        match descriptionToken with
        | [] => ""
        | token :: _ => (jsSplitS token "@description").getLastD ""
  jsTrimS description

/-- One real line break, optionally preceded by a real carriage return
(Windows line ending), as found in already-normalized content. -/
def crlf (b : Bool) : String := if b then "\r\n" else "\n"

/-- The corresponding two-character escape sequences (`\r` and `\n` escapes)
as found in not-yet-normalized development-mode content. -/
def escCrlf (b : Bool) : String := if b then "\\r\\n" else "\\n"

/-! ### Tree construction (src/index.js lines 170-229) -/

/-- The `folderInfo` object of the plugin hook (src/index.js lines 364,
372-376): built by `folderInfo[folder.path] = folder`, so for duplicate
paths the last assignment wins. -/
def folderInfoLookup (folderInfo : List FolderAnnotation) (key : String) :
    Option FolderAnnotation :=
  (folderInfo.filter (fun a => a.path = key)).getLast?

/-- JS object property read on the insertion-ordered `folders` map. -/
def lookupFolder : List (String × Dir) → String → Option Dir
  | [], _ => none
  | (k, d) :: rest, key => if k = key then some d else lookupFolder rest key

/-- JS object property overwrite on an existing key (keeps its position). -/
def updateFolder : List (String × Dir) → String → Dir → List (String × Dir)
  | [], _, _ => []
  | (k, d) :: rest, key, v =>
    if k = key then (k, v) :: rest else (k, d) :: updateFolder rest key v

/-- The `while (path.length > 0)` walk of `generateDirectoryObject`
(src/index.js lines 194-226): descend along the directory segments, creating
missing nodes (appended at the end of the insertion-ordered folder map, with
the folder-annotation lookup performed only at creation, src/index.js lines
203-218), and push the file entry at the final node. -/
def insertFile (folderInfo : List FolderAnnotation) (visitedPaths : List String) :
    List String → Dir → FileObject → Dir
  | [], Dir.mk files folders pp de da ic, f => Dir.mk (files ++ [f]) folders pp de da ic
  | folder :: path, Dir.mk files folders pp de da ic, f =>
    let visitedPaths' := visitedPaths ++ [folder]
    match lookupFolder folders folder with
    | some sub =>
      Dir.mk files
        (updateFolder folders folder (insertFile folderInfo visitedPaths' path sub f)) pp de da ic
    | none =>
      let joinedPath := String.intercalate "/" visitedPaths'
      let ann := folderInfoLookup folderInfo joinedPath
      let folderDesc := (ann.map FolderAnnotation.description).getD ""
      let folderIcon := (ann.map FolderAnnotation.distIconPath).getD ""
      let folderDefaultAction := (ann.map FolderAnnotation.defaultAction).getD ""
      let newDir := Dir.mk [] [] (pp ++ folder ++ "/") folderDesc
        (if folderDefaultAction ≠ "" then folderDefaultAction else "") folderIcon
      Dir.mk files
        (folders ++ [(folder, insertFile folderInfo visitedPaths' path newDir f)]) pp de da ic

/-- Path decomposition of one asset key (src/index.js lines 189-193):
split on `/`, pop the file name, and drop a leading empty segment produced
by a leading slash. -/
def fileSegs (filename : String) : List String × String :=
  let segs := jsSplitS filename "/"
  let file := segs.getLastD ""
  let path := segs.dropLast
  let path := if path.head? = some "" then path.tail else path
  (path, file)

/-- The body of the `for (var filename in compilationAssestsObject)` loop of
`generateDirectoryObject` (src/index.js lines 181-227): skip invalid files,
otherwise insert the file entry along its directory path. -/
def addAsset (folderInfo : List FolderAnnotation) (environment : String)
    (directoryObject : Dir) (asset : String × String) : Dir :=
  if isValidFile asset.2 asset.1 then
    let fileDesc := getFileDescription asset.2 environment
    let segs := fileSegs asset.1
    insertFile folderInfo [""] segs.1 directoryObject (FileObject.mk segs.2 fileDesc)
  else directoryObject

/-- `generateDirectoryObject` (src/index.js lines 170-229), folding the
per-file work over the insertion-ordered asset collection.  The unused
`sites` passthrough is omitted (see `Dir`). -/
def generateDirectoryObject (compilationAssets : List (String × String))
    (packageDescription packageIcon : String)
    (folderInfo : List FolderAnnotation) (environment : String) : Dir :=
  compilationAssets.foldl (addAsset folderInfo environment)
    (Dir.mk [] [] "/" packageDescription "" packageIcon)

/-- The filter of `getFolderIconsInfo` (src/index.js lines 328-329): folder
annotations with a truthy, non-`http(s)` icon path.  Each one causes exactly
one icon asset to be read and pushed into the build output (lines 330-335);
the unique-token renaming and binary payload are boundary I/O and are not
modelled beyond the source reference. -/
def foldersWithLocalIcons (folderDescriptionList : List FolderAnnotation) :
    List FolderAnnotation :=
  folderDescriptionList.filter
    (fun folder => folder.iconPath != "" && !httpUrlTest folder.iconPath)

/-- The original relative icon paths for which the plugin emits an icon
entry into the artifact collection. -/
def emittedIconSources (folderDescriptionList : List FolderAnnotation) : List String :=
  (foldersWithLocalIcons folderDescriptionList).map FolderAnnotation.iconPath

end MetaGen

namespace MetaGen

/-! ### A JSON well-formedness checker

Used to formalise "the generated document text is (not) a well-formed JSON
object".  The checker is deliberately lenient (e.g. any escape after a
backslash is accepted inside strings, and numbers are scanned loosely), so
it accepts a superset of RFC 8259 JSON texts; a `false` verdict therefore
certifies genuine ill-formedness. -/

/-- Skip JSON insignificant whitespace. -/
def skipJsonWs : List Char → List Char
  | [] => []
  | c :: cs => if c = ' ' ∨ c = '\t' ∨ c = '\n' ∨ c = '\r' then skipJsonWs cs else c :: cs

/-- Scan a JSON string body after its opening quote; returns what follows the
closing quote. -/
def scanJsonString : List Char → Option (List Char)
  | [] => none
  | '"' :: cs => some cs
  | '\\' :: [] => none
  | '\\' :: _ :: cs => scanJsonString cs
  | _ :: cs => scanJsonString cs

/-- Characters a (leniently scanned) JSON number may use. -/
def jsonNumChar (c : Char) : Bool :=
  c.isDigit || c == '-' || c == '+' || c == '.' || c == 'e' || c == 'E'

/-- Scan a nonempty run of number characters. -/
def scanJsonNumber (cs : List Char) : Option (List Char) :=
  if (cs.takeWhile jsonNumChar).isEmpty then none else some (cs.dropWhile jsonNumChar)

/-- Expect a literal word. -/
def expectLit (lit cs : List Char) : Option (List Char) :=
  if lit <+: cs then some (cs.drop lit.length) else none

mutual
/-- Parse one JSON value, returning the unconsumed remainder. -/
def parseJsonValue : Nat → List Char → Option (List Char)
  | 0, _ => none
  | fuel + 1, cs =>
    match skipJsonWs cs with
    | '"' :: rest => scanJsonString rest
    | '{' :: rest =>
      (match skipJsonWs rest with
      | '}' :: rest2 => some rest2
      | other => parseJsonMembers fuel other)
    | '[' :: rest =>
      (match skipJsonWs rest with
      | ']' :: rest2 => some rest2
      | other => parseJsonElems fuel other)
    | other =>
      match expectLit "true".data other with
      | some rest => some rest
      | none =>
        match expectLit "false".data other with
        | some rest => some rest
        | none =>
          match expectLit "null".data other with
          | some rest => some rest
          | none => scanJsonNumber other

/-- Parse the (nonempty) member list of a JSON object, including the closing
brace. -/
def parseJsonMembers : Nat → List Char → Option (List Char)
  | 0, _ => none
  | fuel + 1, cs =>
    match skipJsonWs cs with
    | '"' :: rest =>
      (match scanJsonString rest with
      | none => none
      | some afterKey =>
        match skipJsonWs afterKey with
        | ':' :: afterColon =>
          (match parseJsonValue fuel afterColon with
          | none => none
          | some afterVal =>
            match skipJsonWs afterVal with
            | ',' :: next => parseJsonMembers fuel next
            | '}' :: rest2 => some rest2
            | _ => none)
        | _ => none)
    | _ => none

/-- Parse the (nonempty) element list of a JSON array, including the closing
bracket. -/
def parseJsonElems : Nat → List Char → Option (List Char)
  | 0, _ => none
  | fuel + 1, cs =>
    match parseJsonValue fuel cs with
    | none => none
    | some afterVal =>
      match skipJsonWs afterVal with
      | ',' :: next => parseJsonElems fuel next
      | ']' :: rest2 => some rest2
      | _ => none
end

/-- `isJsonText s`: `s` consists of one JSON value with only whitespace
around it.  The fuel `2 * s.length + 16` cannot be exhausted: every
recursive call follows the consumption of at least one input character. -/
def isJsonText (s : String) : Bool :=
  match parseJsonValue (2 * s.length + 16) s.data with
  | some rest => (skipJsonWs rest).isEmpty
  | none => false


/-! ### Specification-side definitions

These formalise vocabulary of the specification / claims (not of the JS
source); each is clearly named and compared against the embedded source
functions by the theorems below. -/

/-- Claim C5's reading of the extractor: the trimmed text following the
FIRST occurrence of the description marker on the first line that contains
the marker, empty when no line contains it. -/
def claimFirstOccDescription (fileContent : String) : String :=
  match (jsSplitS fileContent "\n").filter (fun line => includesS line "@description") with
  | [] => ""
  | line :: _ =>
    match splitFirst "@description".data line.data with
    | some (_, a) => jsTrimS (String.mk a)
    | none => ""

/-- Fueled worker for `lastSplitPiece`. -/
def lastPieceF (pat : List Char) : Nat → List Char → List Char
  | 0, cs => cs
  | fuel + 1, cs =>
    match splitFirst pat cs with
    | none => cs
    | some (_, a) => lastPieceF pat fuel a

/-- The text left after repeatedly discarding everything up to and including
the leftmost occurrence of `pat`: the text following the last occurrence in
the left-to-right non-overlapping scan. -/
def lastSplitPiece (pat cs : List Char) : List Char := lastPieceF pat (cs.length + 1) cs

/-- The sequence of `joinedPath` strings at which `insertFile` consults the
folder-annotation index while walking `path` from `visitedPaths`
(src/index.js lines 194-209: every visited accumulated path, whether or not
the node already exists). -/
def insertKeys : List String → List String → List String
  | _, [] => []
  | visited, folder :: path =>
    String.intercalate "/" (visited ++ [folder]) :: insertKeys (visited ++ [folder]) path

/-- All annotation-index keys the tree builder can consult for a given asset
collection: the accumulated paths of every directory of every valid
artifact. -/
def lookupKeys (assets : List (String × String)) : List String :=
  assets.flatMap
    (fun asset =>
      if isValidFile asset.2 asset.1 then insertKeys [""] (fileSegs asset.1).1 else [])

mutual
/-- Number of directory nodes of a tree. -/
def Dir.nodeCount : Dir → Nat
  | .mk _ folders _ _ _ _ => 1 + nodeCountFolders folders

def nodeCountFolders : List (String × Dir) → Nat
  | [] => 0
  | (_, d) :: rest => Dir.nodeCount d + nodeCountFolders rest
end

mutual
/-- Every node of the tree, identified by its list of folder keys from the
root. -/
def Dir.keyPaths : Dir → List (List String)
  | .mk _ folders _ _ _ _ => [] :: keyPathsFolders folders

def keyPathsFolders : List (String × Dir) → List (List String)
  | [] => []
  | (k, d) :: rest => (Dir.keyPaths d).map (fun kp => k :: kp) ++ keyPathsFolders rest
end

/-- The directories implied by one artifact path: every prefix of its list
of directory segments (the empty prefix being the root). -/
def dirsOfPath (filename : String) : List (List String) := (fileSegs filename).1.inits

/-- Claim side, C1 as stated: the distinct directories implied by ALL the
artifacts' paths, root included. -/
def impliedDirsAll (assets : List (String × String)) : Finset (List String) :=
  assets.foldl (fun acc asset => acc ∪ (dirsOfPath asset.1).toFinset) {[]}

/-- The distinct directories implied by the paths of the VALID artifacts
(those that `isValidFile` lets through), root included. -/
def impliedDirsValid (assets : List (String × String)) : Finset (List String) :=
  assets.foldl
    (fun acc asset =>
      if isValidFile asset.2 asset.1 then acc ∪ (dirsOfPath asset.1).toFinset else acc)
    {[]}

/-- Follow a list of folder keys down the tree. -/
def findNode : Dir → List String → Option Dir
  | d, [] => some d
  | d, key :: rest =>
    match lookupFolder d.folders key with
    | some sub => findNode sub rest
    | none => none

/-- The key has no slash (true for every segment `split("/")` produces). -/
def noSlash (s : String) : Prop := '/' ∉ s.data

/-- Well-formedness of a directory tree, as established by the tree builder:
at every node the folder keys are distinct and slash-free and each child's
`parentPath` extends its parent's by `key + "/"`. -/
inductive Wf : Dir → Prop where
  | mk (files : List FileObject) (folders : List (String × Dir))
      (pp de da ic : String)
      (nodup : (folders.map Prod.fst).Nodup)
      (keys : ∀ p ∈ folders, noSlash p.1 ∧ Dir.parentPath p.2 = pp ++ p.1 ++ "/")
      (child : ∀ p ∈ folders, Wf p.2) :
      Wf (Dir.mk files folders pp de da ic)


example : isJsonText "\x7b\n  \"a\": [1, 2, \x7b\"b\": \"c\"\x7d],\n  \"d\": null\n\x7d" = true := by decide
example : isJsonText "\x7b\"a\": \x7d" = false := by decide
example : isJsonText "\x7b\"a\": \"x\"b\"\x7d" = false := by decide
example : isJsonText "\"free \\\" quote\"" = true := by decide

set_option maxRecDepth 20000 in
example :
    isJsonText (getMetaJsonContent [⟨"one.js", "setup"⟩] [⟨"sub", "a folder"⟩] "pkg" "d" "" "") =
      true := by decide

set_option maxRecDepth 20000 in
example :
    isJsonText (getMetaJsonContent [⟨"one.js", "say \"hi\""⟩] [] "pkg" "d" "" "") = false := by
  decide

example : getMetaScripts [] [] = "]" := by decide

set_option maxRecDepth 20000 in
example : isJsonText (getMetaJsonContent [] [] "pkg" "" "" "") = false := by decide

/-! ### Lemmas about the string primitives -/

theorem occ_cons {pat : List Char} {c : Char} {cs : List Char} :
    pat <:+: (c :: cs) ↔ pat <+: (c :: cs) ∨ pat <:+: cs := by
  constructor
  · rintro ⟨s, t, h⟩
    cases s with
    | nil => exact Or.inl ⟨t, by simpa using h⟩
    | cons x xs =>
      right
      refine ⟨xs, t, ?_⟩
      simpa using congrArg List.tail h
  · rintro (⟨t, h⟩ | ⟨s, t, h⟩)
    · exact ⟨[], t, h⟩
    · exact ⟨c :: s, t, by simp [← h]⟩

theorem not_occ_of_head_not_mem {c : Char} {sep' l : List Char} (h : c ∉ l) :
    ¬ (c :: sep') <:+: l := by
  rintro ⟨s, t, rfl⟩
  exact h (by simp)

theorem splitFirst_none {pat cs : List Char} (hp : pat ≠ []) :
    splitFirst pat cs = none ↔ ¬ pat <:+: cs := by
  induction cs with
  | nil =>
    constructor
    · rintro - ⟨s, t, h⟩
      rcases List.append_eq_nil.mp h with ⟨h1, -⟩
      exact hp (List.append_eq_nil.mp h1).2
    · intro _
      rfl
  | cons c rest ih =>
    simp only [splitFirst]
    by_cases hpre : pat <+: (c :: rest)
    · simp only [if_pos hpre]
      constructor
      · intro h
        exact absurd h (by simp)
      · intro h
        exact absurd (occ_cons.mpr (Or.inl hpre)) h
    · simp only [if_neg hpre]
      rcases hsf : splitFirst pat rest with - | ⟨b, a⟩
      · have hno := ih.mp hsf
        constructor
        · intro _
          intro hocc
          rcases occ_cons.mp hocc with h1 | h2
          · exact hpre h1
          · exact hno h2
        · intro _
          rfl
      · have hocc : pat <:+: rest := by
          by_contra hno
          rw [ih.mpr hno] at hsf
          exact absurd hsf (by simp)
        constructor
        · intro h
          exact absurd h (by simp)
        · intro h
          exact absurd (occ_cons.mpr (Or.inr hocc)) h

theorem splitFirst_cons_pos {pat : List Char} {c : Char} {cs : List Char}
    (h : pat <+: (c :: cs)) :
    splitFirst pat (c :: cs) = some ([], (c :: cs).drop pat.length) := by
  simp [splitFirst, h]

theorem splitFirst_cons_neg {pat : List Char} {c : Char} {cs : List Char}
    (h : ¬ pat <+: (c :: cs)) :
    splitFirst pat (c :: cs) =
      match splitFirst pat cs with
      | some (b, a) => some (c :: b, a)
      | none => none := by
  simp [splitFirst, h]

theorem splitFirst_append {pat : List Char} :
    ∀ {cs b a : List Char}, splitFirst pat cs = some (b, a) → b ++ pat ++ a = cs := by
  intro cs
  induction cs with
  | nil => intro b a h; simp [splitFirst] at h
  | cons c rest ih =>
    intro b a h
    by_cases hpre : pat <+: (c :: rest)
    · rcases hpre with ⟨t, ht⟩
      rw [splitFirst_cons_pos ⟨t, ht⟩] at h
      have hdrop : (c :: rest).drop pat.length = t := by
        rw [← ht, List.drop_left]
      rw [hdrop] at h
      cases h with
      | refl => simpa using ht
    · rw [splitFirst_cons_neg hpre] at h
      rcases hsf : splitFirst pat rest with - | ⟨b', a'⟩ <;> rw [hsf] at h
      · exact absurd h (by simp)
      · cases h with
        | refl =>
          have := ih hsf
          simpa using congrArg (c :: ·) this

theorem splitFirst_len {pat cs b a : List Char} (hp : pat ≠ [])
    (h : splitFirst pat cs = some (b, a)) : a.length < cs.length := by
  have := splitFirst_append h
  have hlen := congrArg List.length this
  simp only [List.length_append] at hlen
  have : 0 < pat.length := List.length_pos.mpr hp
  omega

theorem jsSplitF_congr {pat : List Char} (hp : pat ≠ []) :
    ∀ f1 f2 cs, cs.length < f1 → cs.length < f2 → jsSplitF pat f1 cs = jsSplitF pat f2 cs := by
  intro f1
  induction f1 with
  | zero => intro f2 cs h1; omega
  | succ g ih =>
    intro f2 cs h1 h2
    cases f2 with
    | zero => omega
    | succ g2 =>
      rcases hsf : splitFirst pat cs with - | ⟨b, a⟩
      · simp [jsSplitF, hsf]
      · have ha := splitFirst_len hp hsf
        simp only [jsSplitF, hsf]
        rw [ih g2 a (by omega) (by omega)]

theorem jsSplit_of_none {pat cs : List Char} (h : splitFirst pat cs = none) :
    jsSplit pat cs = [cs] := by
  simp [jsSplit, jsSplitF, h]

theorem jsSplit_of_some {pat cs b a : List Char} (hp : pat ≠ [])
    (h : splitFirst pat cs = some (b, a)) : jsSplit pat cs = b :: jsSplit pat a := by
  have ha := splitFirst_len hp h
  have h1 : jsSplit pat cs = b :: jsSplitF pat cs.length a := by
    simp only [jsSplit, jsSplitF, h]
  rw [h1, jsSplit]
  exact congrArg (b :: ·) (jsSplitF_congr hp cs.length (a.length + 1) a (by omega) (by omega))

theorem jsSplit_ne_nil {pat cs : List Char} : jsSplit pat cs ≠ [] := by
  rw [jsSplit]
  simp only [jsSplitF]
  rcases splitFirst pat cs with - | ⟨b, a⟩ <;> simp

theorem jsSplit_no_occ {pat cs : List Char} (hp : pat ≠ []) (h : ¬ pat <:+: cs) :
    jsSplit pat cs = [cs] :=
  jsSplit_of_none ((splitFirst_none hp).mpr h)

theorem splitFirst_boundary {c : Char} {sep' : List Char} :
    ∀ {l rest : List Char}, c ∉ l →
      splitFirst (c :: sep') (l ++ (c :: sep') ++ rest) = some (l, rest) := by
  intro l
  induction l with
  | nil =>
    intro rest _
    have h0 : ([] : List Char) ++ (c :: sep') ++ rest = c :: (sep' ++ rest) := by simp
    rw [h0, splitFirst_cons_pos ⟨rest, by simp⟩]
    simp [List.drop_left]
  | cons x xs ih =>
    intro rest hmem
    have hx : c ≠ x := fun h => hmem (h ▸ List.mem_cons_self x xs)
    have hxs : c ∉ xs := fun h => hmem (List.mem_cons_of_mem x h)
    have h0 : (x :: xs) ++ (c :: sep') ++ rest = x :: (xs ++ (c :: sep') ++ rest) := by simp
    have hnp : ¬ (c :: sep') <+: (x :: (xs ++ (c :: sep') ++ rest)) := by
      rintro ⟨t, ht⟩
      exact hx (by injection ht)
    rw [h0, splitFirst_cons_neg hnp, ih hxs]

theorem jsSplit_boundary {c : Char} {sep' l rest : List Char} (h : c ∉ l) :
    jsSplit (c :: sep') (l ++ (c :: sep') ++ rest) = l :: jsSplit (c :: sep') rest :=
  jsSplit_of_some (by simp) (splitFirst_boundary h)

theorem removeFirstOcc_id {pat : List Char} :
    ∀ {cs : List Char}, ¬ pat <:+: cs → removeFirstOcc pat cs = cs := by
  intro cs
  induction cs with
  | nil => intro _; rfl
  | cons c rest ih =>
    intro h
    have hpre : ¬ pat <+: (c :: rest) := fun hp => h (occ_cons.mpr (Or.inl hp))
    have hrest : ¬ pat <:+: rest := fun hp => h (occ_cons.mpr (Or.inr hp))
    simp only [removeFirstOcc, if_neg hpre, ih hrest]

theorem lastPieceF_congr {pat : List Char} (hp : pat ≠ []) :
    ∀ f1 f2 cs, cs.length < f1 → cs.length < f2 → lastPieceF pat f1 cs = lastPieceF pat f2 cs := by
  intro f1
  induction f1 with
  | zero => intro f2 cs h1; omega
  | succ g ih =>
    intro f2 cs h1 h2
    cases f2 with
    | zero => omega
    | succ g2 =>
      rcases hsf : splitFirst pat cs with - | ⟨b, a⟩
      · simp [lastPieceF, hsf]
      · have ha := splitFirst_len hp hsf
        simp only [lastPieceF, hsf]
        exact ih g2 a (by omega) (by omega)

theorem lastSplitPiece_of_none {pat cs : List Char} (h : splitFirst pat cs = none) :
    lastSplitPiece pat cs = cs := by
  simp [lastSplitPiece, lastPieceF, h]

theorem lastSplitPiece_of_some {pat cs b a : List Char} (hp : pat ≠ [])
    (h : splitFirst pat cs = some (b, a)) : lastSplitPiece pat cs = lastSplitPiece pat a := by
  have ha := splitFirst_len hp h
  have h1 : lastSplitPiece pat cs = lastPieceF pat cs.length a := by
    simp only [lastSplitPiece, lastPieceF, h]
  rw [h1, lastSplitPiece]
  exact lastPieceF_congr hp cs.length (a.length + 1) a (by omega) (by omega)

/-- The last element of a JS split is the piece after the final occurrence in
the left-to-right scan. -/
theorem jsSplit_getLast? {pat : List Char} (hp : pat ≠ []) :
    ∀ cs, (jsSplit pat cs).getLast? = some (lastSplitPiece pat cs) := by
  suffices h : ∀ n cs, cs.length = n → (jsSplit pat cs).getLast? = some (lastSplitPiece pat cs) by
    intro cs
    exact h cs.length cs rfl
  intro n
  induction n using Nat.strong_induction_on with
  | _ n ih =>
    intro cs hn
    rcases hsf : splitFirst pat cs with - | ⟨b, a⟩
    · rw [jsSplit_of_none hsf, lastSplitPiece_of_none hsf]
      rfl
    · rw [jsSplit_of_some hp hsf, lastSplitPiece_of_some hp hsf]
      have ha : a.length < n := hn ▸ splitFirst_len hp hsf
      have htail := ih a.length ha a rfl
      have hne : jsSplit pat a ≠ [] := jsSplit_ne_nil
      rcases hjs : jsSplit pat a with - | ⟨x, xs⟩
      · exact absurd hjs hne
      · rw [List.getLast?_cons_cons]
        rw [hjs] at htail
        exact htail

end MetaGen

namespace MetaGen

/-! ### Unfolding the fueled document generator -/

theorem perm_insertIdxEntry (e : String × Dir) :
    ∀ l : List (String × Dir), (insertIdxEntry e l).Perm (e :: l) := by
  intro l
  induction l with
  | nil => exact List.Perm.refl _
  | cons f rest ih =>
    simp only [insertIdxEntry]
    by_cases h : keyNum e.1 ≤ keyNum f.1
    · rw [if_pos h]
    · rw [if_neg h]
      exact (List.Perm.cons f ih).trans (List.Perm.swap e f rest)

theorem perm_sortIdxEntries : ∀ l : List (String × Dir), (sortIdxEntries l).Perm l := by
  intro l
  induction l with
  | nil => exact List.Perm.refl _
  | cons e rest ih =>
    exact (perm_insertIdxEntry e (sortIdxEntries rest)).trans (List.Perm.cons e ih)

theorem perm_jsObjKeys (fl : List (String × Dir)) : (jsObjKeys fl).Perm fl := by
  unfold jsObjKeys
  refine (List.Perm.append (perm_sortIdxEntries _) (List.Perm.refl _)).trans ?_
  exact List.filter_append_perm _ fl

theorem mem_jsObjKeys {fl : List (String × Dir)} {e : String × Dir} :
    e ∈ jsObjKeys fl ↔ e ∈ fl := (perm_jsObjKeys fl).mem_iff

theorem genFuelFolders_eq_sum :
    ∀ l : List (String × Dir),
      genFuelFolders l = 1 + (l.map (fun e => 1 + genFuel e.2)).sum := by
  intro l
  induction l with
  | nil => rfl
  | cons e rest ih =>
    rcases e with ⟨k, sub⟩
    simp only [genFuelFolders, ih, List.map_cons, List.sum_cons]
    omega

theorem genFuelFolders_perm {l₁ l₂ : List (String × Dir)} (h : l₁.Perm l₂) :
    genFuelFolders l₁ = genFuelFolders l₂ := by
  rw [genFuelFolders_eq_sum, genFuelFolders_eq_sum, (h.map _).sum_eq]

theorem genFuelFolders_pos (l : List (String × Dir)) : 1 ≤ genFuelFolders l := by
  cases l with
  | nil => exact le_refl 1
  | cons e rest =>
    rcases e with ⟨k, sub⟩
    simp only [genFuelFolders]
    omega

theorem genF_congrAux : ∀ f₁ : Nat,
    (∀ f₂ d nm, genFuel d ≤ f₁ → genFuel d ≤ f₂ →
      generateMetaJsonF f₁ d nm = generateMetaJsonF f₂ d nm) ∧
    (∀ f₂ l, genFuelFolders l ≤ f₁ → genFuelFolders l ≤ f₂ →
      generateMetaJsonFoldersF f₁ l = generateMetaJsonFoldersF f₂ l) := by
  intro f₁
  induction f₁ using Nat.strong_induction_on with
  | _ f₁ ih =>
    constructor
    · intro f₂ d nm h1 h2
      rcases d with ⟨files, folders, pp, de, da, ic⟩
      have hgf : genFuel (Dir.mk files folders pp de da ic) = 1 + genFuelFolders folders := rfl
      have hperm : genFuelFolders (jsObjKeys folders) = genFuelFolders folders :=
        genFuelFolders_perm (perm_jsObjKeys folders)
      rcases f₁ with - | g
      · exact absurd (hgf ▸ h1) (by omega)
      rcases f₂ with - | h
      · exact absurd (hgf ▸ h2) (by omega)
      simp only [generateMetaJsonF]
      refine congrArg (List.cons _) ?_
      rw [hgf] at h1 h2
      exact (ih g (by omega)).2 h (jsObjKeys folders) (by omega) (by omega)
    · intro f₂ l h1 h2
      rcases l with - | ⟨⟨k, sub⟩, rest⟩
      · rcases f₁ with - | g <;> rcases f₂ with - | h <;> rfl
      · have hgff : genFuelFolders ((k, sub) :: rest) =
            1 + genFuel sub + genFuelFolders rest := rfl
        rw [hgff] at h1 h2
        rcases f₁ with - | g
        · exact absurd h1 (by omega)
        rcases f₂ with - | h
        · exact absurd h2 (by omega)
        simp only [generateMetaJsonFoldersF]
        exact congrArg₂ (· ++ ·)
          ((ih g (by omega)).2 h rest (by omega) (by omega))
          ((ih g (by omega)).1 h sub k (by omega) (by omega))

theorem generateMetaJsonF_eq_gen {f : Nat} {d : Dir} (nm : String) (h : genFuel d ≤ f) :
    generateMetaJsonF f d nm = generateMetaJson d nm :=
  (genF_congrAux f).1 (genFuel d) d nm h (le_refl _)

theorem generateMetaJsonFoldersF_eq_gen {f : Nat} {l : List (String × Dir)}
    (h : genFuelFolders l ≤ f) :
    generateMetaJsonFoldersF f l = generateMetaJsonFolders l :=
  (genF_congrAux f).2 (genFuelFolders l) l h (le_refl _)

/-- Unfolding equation of `generateMetaJson`: emit the node's own document,
then the folder loop over the `Object.keys` enumeration of its children. -/
theorem generateMetaJson_eq (files : List FileObject) (folders : List (String × Dir))
    (pp de da ic nm : String) :
    generateMetaJson (Dir.mk files folders pp de da ic) nm =
      ⟨pp, getMetaJsonContent files
          ((jsObjKeys folders).map (fun p => FolderObject.mk p.1 p.2.description))
          nm de da ic⟩ ::
        generateMetaJsonFolders (jsObjKeys folders) := by
  show generateMetaJsonF (genFuel (Dir.mk files folders pp de da ic)) _ _ = _
  rw [show genFuel (Dir.mk files folders pp de da ic) = genFuelFolders folders + 1 from by
    simp only [genFuel]; omega]
  simp only [generateMetaJsonF]
  refine congrArg (List.cons _) ?_
  exact generateMetaJsonFoldersF_eq_gen
    (le_of_eq (genFuelFolders_perm (perm_jsObjKeys folders)))

theorem generateMetaJsonFolders_nil : generateMetaJsonFolders [] = [] := rfl

/-- Unfolding equation of the folder loop: the `pop()` processes the
enumerated array from its end. -/
theorem generateMetaJsonFolders_cons (k : String) (sub : Dir) (rest : List (String × Dir)) :
    generateMetaJsonFolders ((k, sub) :: rest) =
      generateMetaJsonFolders rest ++ generateMetaJson sub k := by
  show generateMetaJsonFoldersF (genFuelFolders ((k, sub) :: rest)) _ = _
  rw [show genFuelFolders ((k, sub) :: rest) = (genFuel sub + genFuelFolders rest) + 1 from by
    simp only [genFuelFolders]; omega]
  simp only [generateMetaJsonFoldersF]
  exact congrArg₂ (· ++ ·) (generateMetaJsonFoldersF_eq_gen (by omega))
    (generateMetaJsonF_eq_gen k (by omega))

end MetaGen

namespace MetaGen

/-! ### The ignore marker skips an artifact entirely -/

/-- Some line of the content contains the ignore marker. -/
def hasIgnoreLine (content : String) : Prop :=
  ∃ line ∈ jsSplitS content "\n", includesS line "@ignore" = true

instance (content : String) : Decidable (hasIgnoreLine content) := by
  unfold hasIgnoreLine
  infer_instance

theorem isValidFile_of_ignore {content : String} (fileName : String)
    (h : hasIgnoreLine content) : isValidFile content fileName = false := by
  rcases h with ⟨line, hmem, hincl⟩
  unfold isValidFile
  split
  · rfl
  · have hin : line ∈ (jsSplitS content "\n").filter (fun l => includesS l "@ignore") :=
      List.mem_filter.mpr ⟨hmem, hincl⟩
    have hne : ((jsSplitS content "\n").filter (fun l => includesS l "@ignore")).length ≠ 0 := by
      intro hl
      rw [List.length_eq_zero.mp hl] at hin
      exact absurd hin (List.not_mem_nil line)
    exact beq_eq_false_iff_ne.mpr hne

theorem addAsset_ignore {c : String} (fi : List FolderAnnotation) (env f : String) (d : Dir)
    (h : hasIgnoreLine c) : addAsset fi env d (f, c) = d := by
  simp [addAsset, isValidFile_of_ignore f h]

theorem generateDirectoryObject_ignore_mid (pre post : List (String × String))
    {f c : String} (pd pi env : String) (fi : List FolderAnnotation) (h : hasIgnoreLine c) :
    generateDirectoryObject (pre ++ [(f, c)] ++ post) pd pi fi env =
      generateDirectoryObject (pre ++ post) pd pi fi env := by
  unfold generateDirectoryObject
  simp only [List.foldl_append, List.foldl_cons, List.foldl_nil]
  rw [addAsset_ignore fi env f _ h]

/-- C2: an artifact whose content contains the ignore marker on any line is
skipped entirely by the tree builder (`isValidFile` rejects it before any
tree or document work), under every environment flag: the generated
metadata documents are exactly those generated from the collection without
that artifact, so no action record for that file is emitted in any
document's scripts array. -/
theorem ignored_file_in_no_document (pre post : List (String × String))
    {f c : String} (pd pi env pkg : String) (fi : List FolderAnnotation)
    (h : hasIgnoreLine c) :
    generateMetaJson (generateDirectoryObject (pre ++ [(f, c)] ++ post) pd pi fi env) pkg =
      generateMetaJson (generateDirectoryObject (pre ++ post) pd pi fi env) pkg :=
  congrArg (generateMetaJson · pkg) (generateDirectoryObject_ignore_mid pre post pd pi env fi h)

set_option maxRecDepth 20000 in
theorem ignored_file_in_no_document_witness :
    hasIgnoreLine "// @ignore\ncode" ∧
      generateMetaJson
          (generateDirectoryObject ([("a/b.js", "x")] ++ [("a/c.js", "// @ignore\ncode")] ++ [])
            "" "" [] "production") "p" =
        generateMetaJson (generateDirectoryObject ([("a/b.js", "x")] ++ []) "" "" [] "production")
          "p" :=
  ⟨by decide,
    ignored_file_in_no_document [("a/b.js", "x")] [] "" "" "production" "p" [] (by decide)⟩

set_option maxRecDepth 20000 in
/-- C3 counterexample: the single artifact `/a/one.js` whose content carries
the ignore marker is excluded before any directory of its path is created,
so the only emitted document is the root's: no document exists for the
enclosing directory `/a/`, contradicting the claim that a content-empty
document is still generated for it. -/
theorem ignored_only_artifact_leaves_no_directory_cex :
    ((generateMetaJson
        (generateDirectoryObject [("/a/one.js", "// @ignore\nmodule content")] "" "" []
          "production") "pkg").map MetaInfo.path = ["/"]) ∧
      "/a/" ∉
        ((generateMetaJson
          (generateDirectoryObject [("/a/one.js", "// @ignore\nmodule content")] "" "" []
            "production") "pkg").map MetaInfo.path) := by
  constructor
  · decide
  · decide

/-- C3 (amended): an artifact excluded by the ignore marker contributes
nothing at all — in particular no directory nodes — so its enclosing
directory appears as a document only when some other valid artifact implies
it; appending the excluded artifact to any collection leaves the emitted
documents unchanged. -/
theorem ignored_artifact_adds_no_directory (assets : List (String × String))
    {f c : String} (pd pi env pkg : String) (fi : List FolderAnnotation)
    (h : hasIgnoreLine c) :
    generateMetaJson (generateDirectoryObject (assets ++ [(f, c)]) pd pi fi env) pkg =
      generateMetaJson (generateDirectoryObject assets pd pi fi env) pkg := by
  have := @generateDirectoryObject_ignore_mid assets [] f c pd pi env fi h
  simp only [List.append_nil] at this
  exact congrArg (generateMetaJson · pkg) this

set_option maxRecDepth 20000 in
theorem ignored_artifact_adds_no_directory_witness :
    hasIgnoreLine "// @ignore\nmodule content" ∧
      generateMetaJson
          (generateDirectoryObject ([] ++ [("/a/one.js", "// @ignore\nmodule content")]) "" "" []
            "production") "pkg" =
        generateMetaJson (generateDirectoryObject [] "" "" [] "production") "pkg" :=
  ⟨by decide,
    ignored_artifact_adds_no_directory [] "" "" "production" "pkg" [] (by decide)⟩

end MetaGen

namespace MetaGen

/-! ### The description extractor honours the last scanned occurrence -/

theorem jsSplitS_getLastD (s sep : String) (hp : sep.data ≠ []) :
    (jsSplitS s sep).getLastD "" = String.mk (lastSplitPiece sep.data s.data) := by
  unfold jsSplitS
  rw [List.getLastD_eq_getLast?, List.getLast?_map, jsSplit_getLast? hp]
  rfl

/-- C5 counterexample: on a line containing the description marker twice, the
extractor returns the trimmed text after the LAST occurrence (`"b"`), not the
trimmed text after the first occurrence (`"a @description b"`) that the claim
specifies. -/
theorem description_first_occurrence_cex :
    getFileDescription "// @description a @description b" "production" = "b" ∧
      claimFirstOccDescription "// @description a @description b" = "a @description b" ∧
      ("b" : String) ≠ "a @description b" := by
  exact ⟨by decide, by decide, by decide⟩

/-- C5 (amended): in every environment, only the first content line containing
the description marker matters, and `split(...).pop()` takes the piece after
the LAST occurrence of the marker in the left-to-right non-overlapping scan —
not the first.  Under the production flag the scanned text is that line
itself; under any other flag the line is further split at the two-character
`\n` escapes, the tokens containing the marker are kept with their first `\r`
escape removed, and the scanned text is the first such token.  The result is
the trimmed text after the last scanned occurrence, empty when no line
contains the marker. -/
theorem description_after_last_scan_occurrence (fileContent environment : String) :
    getFileDescription fileContent environment =
      (match (jsSplitS fileContent "\n").filter (fun line => includesS line "@description") with
      | [] => ""
      | line :: _ =>
        if environment = "production" then
          jsTrimS (String.mk (lastSplitPiece "@description".data line.data))
        else
          match ((jsSplitS line "\\n").filter (fun token => includesS token "@description")).map
              (fun val => String.mk (removeFirstOcc "\\r".data val.data)) with
          | [] => ""
          | token :: _ =>
            jsTrimS (String.mk (lastSplitPiece "@description".data token.data))) := by
  unfold getFileDescription
  rcases hf : (jsSplitS fileContent "\n").filter (fun line => includesS line "@description") with
    - | ⟨line, rest⟩
  · simp only [hf]
    by_cases he : environment = "production"
    · rw [if_pos he]
      decide
    · rw [if_neg he]
      decide
  · simp only [hf]
    by_cases he : environment = "production"
    · rw [if_pos he, if_pos he]
      rw [jsSplitS_getLastD line "@description" (by decide)]
    · rw [if_neg he, if_neg he]
      rcases ht : ((jsSplitS line "\\n").filter
          (fun token => includesS token "@description")).map
            (fun val => String.mk (removeFirstOcc "\\r".data val.data)) with - | ⟨token, ts⟩
      · simp only [ht]
        decide
      · simp only [ht]
        rw [jsSplitS_getLastD token "@description" (by decide)]

end MetaGen

namespace MetaGen

set_option maxRecDepth 40000 in
/-- C9: the templated document construction performs no escaping, so a
description containing a double quote corrupts the document: for the
description `say "hi"` the generated text is not a well-formed JSON object,
while the same document with a quote-free description is. -/
theorem quote_corrupts_document :
    ∃ desc : String, includesS desc "\"" = true ∧
      isJsonText (getMetaJsonContent [FileObject.mk "one.js" desc] [] "pkg"
        "package description" "" "") = false ∧
      isJsonText (getMetaJsonContent [FileObject.mk "one.js" "plain description"] [] "pkg"
        "package description" "" "") = true :=
  ⟨"say \"hi\"", by decide, by decide, by decide⟩

set_option maxRecDepth 40000 in
/-- C10: when the filtered file list and the folder list of a node are both
empty, no script is pushed, so `slice(0, -1)` removes the opening `[` and the
rendered scripts portion is the single character `]`; consequently the
document emitted for such a directory (here one whose only file is dropped by
the `.json` substring filter) is not a well-formed JSON object. -/
theorem empty_scripts_bracket_malformed :
    (∀ files : List FileObject,
        files.filter (fun fileObject => !includesS fileObject.fileName ".json") = [] →
          getMetaScripts files [] = "]") ∧
      isJsonText (getMetaJsonContent [FileObject.mk "data.json.js" "d"] [] "b" "" "" "") =
        false := by
  constructor
  · intro files h
    unfold getMetaScripts
    rw [h]
    decide
  · decide

theorem empty_scripts_bracket_malformed_witness :
    getMetaScripts [FileObject.mk "data.json.js" "d"] [] = "]" :=
  empty_scripts_bracket_malformed.1 [FileObject.mk "data.json.js" "d"] (by decide)

set_option maxRecDepth 20000 in
/-- C1 counterexample: the collection holding the single artifact
`a/x.json` produces one document (only the root: the `.json` artifact is
skipped), while its path implies two distinct directories (the root and
`a`), so the claimed equality fails for collections with skipped
artifacts. -/
theorem document_count_cex :
    ((generateMetaJson (generateDirectoryObject [("a/x.json", "c")] "" "" [] "production")
        "pkg").length = 1) ∧
      (impliedDirsAll [("a/x.json", "c")]).card = 2 ∧ (1 : Nat) ≠ 2 := by
  refine ⟨by decide, by decide, by decide⟩

end MetaGen

namespace MetaGen

/-! ### Dual line-break encoding (claim C6) -/

theorem str_ext {s t : String} (h : s.data = t.data) : s = t := by
  cases s
  cases t
  exact congrArg String.mk h

theorem jsSplit_step_nl {l rest : List Char} (h : '\n' ∉ l) :
    jsSplit ['\n'] (l ++ '\n' :: rest) = l :: jsSplit ['\n'] rest := by
  have := @jsSplit_boundary '\n' [] l rest h
  simpa using this

theorem jsSplit_step_escnl {l rest : List Char} (h : '\\' ∉ l) :
    jsSplit ['\\', 'n'] (l ++ '\\' :: 'n' :: rest) = l :: jsSplit ['\\', 'n'] rest := by
  have := @jsSplit_boundary '\\' ['n'] l rest h
  simpa using this

theorem pre_append_singleton {pat l : List Char} {c : Char}
    (h : pat <+: l ++ [c]) : pat <+: l ∨ pat = l ++ [c] := by
  rcases h with ⟨t, ht⟩
  rcases List.eq_nil_or_concat t with rfl | ⟨t', a, rfl⟩
  · right
    simpa using ht
  · left
    rw [List.concat_eq_append, ← List.append_assoc] at ht
    exact ⟨t', (List.append_inj' ht (by simp)).1⟩

theorem occ_append_singleton {pat l : List Char} {c : Char} (hp : pat ≠ []) (hc : c ∉ pat) :
    pat <:+: (l ++ [c]) ↔ pat <:+: l := by
  constructor
  · rintro ⟨u, v, huv⟩
    rcases List.eq_nil_or_concat v with rfl | ⟨v', b, rfl⟩
    · rcases List.eq_nil_or_concat pat with rfl | ⟨p', a, rfl⟩
      · exact absurd rfl hp
      · rw [List.concat_eq_append] at huv
        rw [List.append_nil, ← List.append_assoc] at huv
        have ha : a = c := by
          have h2 := (List.append_inj' huv (by simp)).2
          injection h2
        refine absurd ?_ hc
        rw [← ha, List.concat_eq_append]
        exact List.mem_append_right p' (List.mem_singleton_self a)
    · rw [List.concat_eq_append, ← List.append_assoc] at huv
      have h1 := (List.append_inj' huv (by simp)).1
      exact ⟨u, v', h1⟩
  · rintro ⟨u, v, huv⟩
    exact ⟨u, v ++ [c], by rw [← huv]; simp [List.append_assoc]⟩

theorem occ_append_two {pat l : List Char} {x y : Char} (hp : pat ≠ [])
    (hx : x ∉ pat) (hy : pat.getLast? ≠ some y) :
    pat <:+: (l ++ [x, y]) ↔ pat <:+: l := by
  constructor
  · rintro ⟨u, v, huv⟩
    have hxy : (l ++ [x, y]) = (l ++ [x]) ++ [y] := by simp
    rw [hxy] at huv
    rcases List.eq_nil_or_concat v with rfl | ⟨v', b, rfl⟩
    · rcases List.eq_nil_or_concat pat with rfl | ⟨p', a, rfl⟩
      · exact absurd rfl hp
      · rw [List.concat_eq_append] at huv
        rw [List.append_nil, ← List.append_assoc] at huv
        have ha : a = y := by
          have h2 := (List.append_inj' huv (by simp)).2
          injection h2
        refine absurd ?_ hy
        rw [List.concat_eq_append, List.getLast?_concat, ha]
    · rw [List.concat_eq_append, ← List.append_assoc] at huv
      have h1 := (List.append_inj' huv (by simp)).1
      rcases List.eq_nil_or_concat v' with rfl | ⟨v'', e, rfl⟩
      · rcases List.eq_nil_or_concat pat with rfl | ⟨p', a, rfl⟩
        · exact absurd rfl hp
        · rw [List.concat_eq_append] at h1
          rw [List.append_nil, ← List.append_assoc] at h1
          have ha : a = x := by
            have h2 := (List.append_inj' h1 (by simp)).2
            injection h2
          refine absurd ?_ hx
          rw [← ha, List.concat_eq_append]
          exact List.mem_append_right p' (List.mem_singleton_self a)
      · rw [List.concat_eq_append, ← List.append_assoc] at h1
        have h2 := (List.append_inj' h1 (by simp)).1
        exact ⟨u, v'', h2⟩
  · rintro ⟨u, v, huv⟩
    exact ⟨u, v ++ [x, y], by rw [← huv]; simp [List.append_assoc]⟩

theorem splitFirst_append_singleton {pat : List Char} {c : Char}
    (hp : pat ≠ []) (hc : c ∉ pat) :
    ∀ cs : List Char,
      splitFirst pat (cs ++ [c]) =
        match splitFirst pat cs with
        | some (b, a) => some (b, a ++ [c])
        | none => none := by
  intro cs
  induction cs with
  | nil =>
    have hno : ¬ pat <:+: (([] : List Char) ++ [c]) := by
      rw [occ_append_singleton hp hc]
      rintro ⟨u, v, huv⟩
      rcases List.append_eq_nil.mp huv with ⟨h1, -⟩
      exact hp (List.append_eq_nil.mp h1).2
    rw [(splitFirst_none hp).mpr hno]
    rfl
  | cons x rest ih =>
    by_cases hpre : pat <+: (x :: rest)
    · have hpre' : pat <+: x :: (rest ++ [c]) := by
        rcases hpre with ⟨t, ht⟩
        refine ⟨t ++ [c], ?_⟩
        rw [← List.append_assoc, ht]
        rfl
      rw [List.cons_append, splitFirst_cons_pos hpre', splitFirst_cons_pos hpre]
      have hdrop : (x :: (rest ++ [c])).drop pat.length =
          (x :: rest).drop pat.length ++ [c] := by
        rw [← List.cons_append, List.drop_append_of_le_length hpre.length_le]
      rw [hdrop]
    · have hpre' : ¬ pat <+: x :: (rest ++ [c]) := by
        intro hxp
        have hxp' : pat <+: (x :: rest) ++ [c] := by
          rw [List.cons_append]
          exact hxp
        rcases pre_append_singleton hxp' with h | h
        · exact hpre h
        · refine absurd ?_ hc
          rw [h]
          exact List.mem_append_right _ (List.mem_singleton_self c)
      rw [List.cons_append, splitFirst_cons_neg hpre', splitFirst_cons_neg hpre, ih]
      rcases hsf : splitFirst pat rest with - | ⟨b, a⟩ <;> simp

theorem lastSplitPiece_append_singleton {pat : List Char} {c : Char}
    (hp : pat ≠ []) (hc : c ∉ pat) :
    ∀ s : List Char, lastSplitPiece pat (s ++ [c]) = lastSplitPiece pat s ++ [c] := by
  suffices h : ∀ n s, s.length = n →
      lastSplitPiece pat (s ++ [c]) = lastSplitPiece pat s ++ [c] by
    intro s
    exact h s.length s rfl
  intro n
  induction n using Nat.strong_induction_on with
  | _ n ih =>
    intro s hn
    rcases hsf : splitFirst pat s with - | ⟨b, a⟩
    · have h2 : splitFirst pat (s ++ [c]) = none := by
        rw [splitFirst_append_singleton hp hc, hsf]
      rw [lastSplitPiece_of_none h2, lastSplitPiece_of_none hsf]
    · have h2 : splitFirst pat (s ++ [c]) = some (b, a ++ [c]) := by
        rw [splitFirst_append_singleton hp hc, hsf]
      rw [lastSplitPiece_of_some hp h2, lastSplitPiece_of_some hp hsf]
      exact ih a.length (by have := splitFirst_len hp hsf; omega) a rfl

theorem jsTrimL_append_ws {c : Char} (hc : jsIsWs c = true) (x : List Char) :
    jsTrimL (x ++ [c]) = jsTrimL x := by
  unfold jsTrimL
  rw [List.dropWhile_append]
  by_cases hx : (x.dropWhile jsIsWs).isEmpty
  · rw [if_pos hx]
    have h1 : List.dropWhile jsIsWs [c] = [] := by
      rw [List.dropWhile_cons, if_pos hc]
      rfl
    have h2 : x.dropWhile jsIsWs = [] := List.isEmpty_iff.mp hx
    rw [h1, h2]
  · rw [if_neg hx]
    rw [List.reverse_append, List.reverse_singleton, List.singleton_append,
      List.dropWhile_cons, if_pos hc]

theorem removeFirstOcc_boundary {c : Char} {sep' : List Char} :
    ∀ l : List Char, c ∉ l → removeFirstOcc (c :: sep') (l ++ (c :: sep')) = l := by
  intro l
  induction l with
  | nil =>
    intro _
    rw [List.nil_append]
    show removeFirstOcc (c :: sep') (c :: sep') = []
    unfold removeFirstOcc
    rw [if_pos ⟨[], by simp⟩]
    simp
  | cons x l' ih =>
    intro hmem
    have hx : x ≠ c := fun h => hmem (by rw [h]; exact List.mem_cons_self c l')
    have hpre : ¬ (c :: sep') <+: (x :: (l' ++ (c :: sep'))) := by
      rintro ⟨t, ht⟩
      injection ht with h1 _
      exact hx h1.symm
    rw [List.cons_append]
    unfold removeFirstOcc
    rw [if_neg hpre]
    exact congrArg (x :: ·) (ih (fun hm => hmem (List.mem_cons_of_mem x hm)))

theorem splitFirst_prepend {c : Char} {sep' : List Char} :
    ∀ l : List Char, c ∉ l → ∀ cs : List Char,
      splitFirst (c :: sep') (l ++ cs) =
        match splitFirst (c :: sep') cs with
        | some (b, a) => some (l ++ b, a)
        | none => none := by
  intro l
  induction l with
  | nil =>
    intro _ cs
    rw [List.nil_append]
    rcases hsf : splitFirst (c :: sep') cs with - | ⟨b, a⟩ <;> simp
  | cons x l' ih =>
    intro hmem cs
    have hpre : ¬ (c :: sep') <+: (x :: (l' ++ cs)) := by
      rintro ⟨t, ht⟩
      injection ht with h1 _
      exact hmem (by rw [h1]; exact List.mem_cons_self x l')
    rw [List.cons_append, splitFirst_cons_neg hpre,
      ih (fun hm => hmem (List.mem_cons_of_mem x hm)) cs]
    rcases hsf : splitFirst (c :: sep') cs with - | ⟨b, a⟩ <;> simp

theorem jsSplit_step_escr_escnl {l rest : List Char} (h : '\\' ∉ l) :
    jsSplit ['\\', 'n'] (l ++ '\\' :: 'r' :: '\\' :: 'n' :: rest) =
      (l ++ ['\\', 'r']) :: jsSplit ['\\', 'n'] rest := by
  have h1 : splitFirst ['\\', 'n'] ('\\' :: 'r' :: '\\' :: 'n' :: rest) =
      some (['\\', 'r'], rest) := by
    have ha : ¬ ['\\', 'n'] <+: ('\\' :: 'r' :: '\\' :: 'n' :: rest) := by
      rintro ⟨t, ht⟩
      injection ht with _ h2
      injection h2 with h3 _
      exact absurd h3 (by decide)
    have hb : ¬ ['\\', 'n'] <+: ('r' :: '\\' :: 'n' :: rest) := by
      rintro ⟨t, ht⟩
      injection ht with h2 _
      exact absurd h2 (by decide)
    rw [splitFirst_cons_neg ha, splitFirst_cons_neg hb,
      splitFirst_cons_pos ⟨rest, rfl⟩]
    rfl
  have h2 : splitFirst ['\\', 'n'] (l ++ '\\' :: 'r' :: '\\' :: 'n' :: rest) =
      some (l ++ ['\\', 'r'], rest) := by
    rw [splitFirst_prepend l h ('\\' :: 'r' :: '\\' :: 'n' :: rest), h1]
  exact jsSplit_of_some (by decide) h2

theorem marker_in_line_append (d : String) (c : List Char) :
    includesS (String.mk (("// @description " ++ d).data ++ c)) "@description" = true := by
  unfold includesS includesL
  refine decide_eq_true ⟨"// ".data, " ".data ++ d.data ++ c, ?_⟩
  show ("// ".data ++ "@description".data) ++ (" ".data ++ d.data ++ c) =
    ("// @description " ++ d).data ++ c
  rw [String.data_append,
    show ("// @description " : String).data =
      ("// ".data ++ "@description".data) ++ " ".data from by decide]
  simp [List.append_assoc]

theorem prod_side_extraction (p q d : String) (c₁ c₂ : List Char)
    (h₁ : c₁ = [] ∨ c₁ = ['\r']) (h₂ : c₂ = [] ∨ c₂ = ['\r'])
    (hp1 : '\n' ∉ p.data) (hpm : includesS p "@description" = false)
    (hq1 : '\n' ∉ q.data) (hd1 : '\n' ∉ d.data) :
    getFileDescription
        (String.mk ((p.data ++ c₁) ++ '\n' ::
          ((("// @description " ++ d).data ++ c₂) ++ '\n' :: q.data))) "production" =
      jsTrimS (String.mk
        (lastSplitPiece "@description".data ("// @description " ++ d).data)) := by
  have hLn : '\n' ∉ ("// @description " ++ d).data := by
    rw [String.data_append]
    intro hmem
    rcases List.mem_append.mp hmem with h | h
    · exact absurd h (by decide)
    · exact hd1 h
  have hc₁n : '\n' ∉ c₁ := by rcases h₁ with rfl | rfl <;> decide
  have hc₂n : '\n' ∉ c₂ := by rcases h₂ with rfl | rfl <;> decide
  have hSplit : jsSplitS
      (String.mk ((p.data ++ c₁) ++ '\n' ::
        ((("// @description " ++ d).data ++ c₂) ++ '\n' :: q.data))) "\n" =
      [String.mk (p.data ++ c₁),
        String.mk (("// @description " ++ d).data ++ c₂), q] := by
    unfold jsSplitS
    show (jsSplit ['\n'] ((p.data ++ c₁) ++ '\n' ::
      ((("// @description " ++ d).data ++ c₂) ++ '\n' :: q.data))).map String.mk = _
    rw [jsSplit_step_nl (by
        intro hm
        rcases List.mem_append.mp hm with h | h
        · exact hp1 h
        · exact hc₁n h),
      jsSplit_step_nl (by
        intro hm
        rcases List.mem_append.mp hm with h | h
        · exact hLn h
        · exact hc₂n h),
      jsSplit_no_occ (by decide) (not_occ_of_head_not_mem hq1)]
    simp only [List.map_cons, List.map_nil]
  have hFp : includesS (String.mk (p.data ++ c₁)) "@description" = false := by
    unfold includesS includesL
    refine decide_eq_false ?_
    intro hocc
    have hocc' : "@description".data <:+: p.data := by
      rcases h₁ with rfl | rfl
      · simpa using hocc
      · exact (occ_append_singleton (by decide) (by decide)).mp hocc
    exact of_decide_eq_false hpm hocc'
  have hFL := marker_in_line_append d c₂
  unfold getFileDescription
  rw [hSplit]
  simp only [List.filter_cons, List.filter_nil, hFp, hFL, Bool.false_eq_true, if_false,
    eq_self_iff_true, if_true]
  show jsTrimS ((jsSplitS (String.mk (("// @description " ++ d).data ++ c₂))
    "@description").getLastD "") = _
  rw [jsSplitS_getLastD _ "@description" (by decide)]
  show jsTrimS (String.mk
    (lastSplitPiece "@description".data (("// @description " ++ d).data ++ c₂))) = _
  rcases h₂ with rfl | rfl
  · rw [List.append_nil]
  · rw [lastSplitPiece_append_singleton (by decide) (by decide)]
    show String.mk (jsTrimL (lastSplitPiece "@description".data
      ("// @description " ++ d).data ++ ['\r'])) = _
    rw [jsTrimL_append_ws (by decide)]
    rfl

theorem dev_side_extraction (p q d : String) (c₁ c₂ : List Char)
    (h₁ : c₁ = [] ∨ c₁ = ['\\', 'r']) (h₂ : c₂ = [] ∨ c₂ = ['\\', 'r'])
    (hp1 : '\n' ∉ p.data) (hp2 : '\\' ∉ p.data)
    (hpm : includesS p "@description" = false)
    (hq1 : '\n' ∉ q.data) (hq2 : '\\' ∉ q.data)
    (hd1 : '\n' ∉ d.data) (hd2 : '\\' ∉ d.data) :
    getFileDescription
        (String.mk ((p.data ++ c₁) ++ '\\' :: 'n' ::
          ((("// @description " ++ d).data ++ c₂) ++ '\\' :: 'n' :: q.data)))
        "development" =
      jsTrimS (String.mk
        (lastSplitPiece "@description".data ("// @description " ++ d).data)) := by
  have hLn : '\n' ∉ ("// @description " ++ d).data := by
    rw [String.data_append]
    intro hmem
    rcases List.mem_append.mp hmem with h | h
    · exact absurd h (by decide)
    · exact hd1 h
  have hLb : '\\' ∉ ("// @description " ++ d).data := by
    rw [String.data_append]
    intro hmem
    rcases List.mem_append.mp hmem with h | h
    · exact absurd h (by decide)
    · exact hd2 h
  have hc₁n : '\n' ∉ c₁ := by rcases h₁ with rfl | rfl <;> decide
  have hc₂n : '\n' ∉ c₂ := by rcases h₂ with rfl | rfl <;> decide
  have hNoNl : '\n' ∉ ((p.data ++ c₁) ++ '\\' :: 'n' ::
      ((("// @description " ++ d).data ++ c₂) ++ '\\' :: 'n' :: q.data)) := by
    intro hm
    rcases List.mem_append.mp hm with h | h
    · rcases List.mem_append.mp h with h | h
      · exact hp1 h
      · exact hc₁n h
    · rcases List.mem_cons.mp h with h | h
      · exact absurd h (by decide)
      rcases List.mem_cons.mp h with h | h
      · exact absurd h (by decide)
      rcases List.mem_append.mp h with h | h
      · rcases List.mem_append.mp h with h | h
        · exact hLn h
        · exact hc₂n h
      · rcases List.mem_cons.mp h with h | h
        · exact absurd h (by decide)
        rcases List.mem_cons.mp h with h | h
        · exact absurd h (by decide)
        · exact hq1 h
  have hSplitNl : jsSplitS
      (String.mk ((p.data ++ c₁) ++ '\\' :: 'n' ::
        ((("// @description " ++ d).data ++ c₂) ++ '\\' :: 'n' :: q.data))) "\n" =
      [String.mk ((p.data ++ c₁) ++ '\\' :: 'n' ::
        ((("// @description " ++ d).data ++ c₂) ++ '\\' :: 'n' :: q.data))] := by
    unfold jsSplitS
    rw [show ("\n" : String).data = ['\n'] from rfl,
      jsSplit_no_occ (by decide) (not_occ_of_head_not_mem hNoNl)]
    simp only [List.map_cons, List.map_nil]
  have hM : includesS
      (String.mk ((p.data ++ c₁) ++ '\\' :: 'n' ::
        ((("// @description " ++ d).data ++ c₂) ++ '\\' :: 'n' :: q.data)))
      "@description" = true := by
    unfold includesS includesL
    refine decide_eq_true
      ⟨(p.data ++ c₁) ++ '\\' :: 'n' :: "// ".data,
        " ".data ++ d.data ++ c₂ ++ '\\' :: 'n' :: q.data, ?_⟩
    rw [String.data_append,
      show ("// @description " : String).data =
        ("// ".data ++ "@description".data) ++ " ".data from by decide]
    simp [List.append_assoc]
  have hFp : includesS (String.mk (p.data ++ c₁)) "@description" = false := by
    unfold includesS includesL
    refine decide_eq_false ?_
    intro hocc
    have hocc' : "@description".data <:+: p.data := by
      rcases h₁ with rfl | rfl
      · simpa using hocc
      · exact (occ_append_two (by decide) (by decide) (by decide)).mp hocc
    exact of_decide_eq_false hpm hocc'
  have hFL := marker_in_line_append d c₂
  have hTok : jsSplitS
      (String.mk ((p.data ++ c₁) ++ '\\' :: 'n' ::
        ((("// @description " ++ d).data ++ c₂) ++ '\\' :: 'n' :: q.data))) "\\n" =
      [String.mk (p.data ++ c₁),
        String.mk (("// @description " ++ d).data ++ c₂), q] := by
    unfold jsSplitS
    show (jsSplit ['\\', 'n'] ((p.data ++ c₁) ++ '\\' :: 'n' ::
      ((("// @description " ++ d).data ++ c₂) ++ '\\' :: 'n' :: q.data))).map String.mk = _
    rcases h₁ with rfl | rfl
    · rw [List.append_nil, jsSplit_step_escnl hp2]
      rcases h₂ with rfl | rfl
      · rw [List.append_nil, jsSplit_step_escnl hLb,
          jsSplit_no_occ (by decide) (not_occ_of_head_not_mem hq2)]
        simp only [List.map_cons, List.map_nil]
      · rw [List.append_assoc,
          show (['\\', 'r'] : List Char) ++ '\\' :: 'n' :: q.data =
            '\\' :: 'r' :: '\\' :: 'n' :: q.data from rfl,
          jsSplit_step_escr_escnl hLb,
          jsSplit_no_occ (by decide) (not_occ_of_head_not_mem hq2)]
        simp only [List.map_cons, List.map_nil]
    · rw [List.append_assoc,
        show (['\\', 'r'] : List Char) ++ '\\' :: 'n' ::
            ((("// @description " ++ d).data ++ c₂) ++ '\\' :: 'n' :: q.data) =
          '\\' :: 'r' :: '\\' :: 'n' ::
            ((("// @description " ++ d).data ++ c₂) ++ '\\' :: 'n' :: q.data) from rfl,
        jsSplit_step_escr_escnl hp2]
      rcases h₂ with rfl | rfl
      · rw [List.append_nil, jsSplit_step_escnl hLb,
          jsSplit_no_occ (by decide) (not_occ_of_head_not_mem hq2)]
        simp only [List.map_cons, List.map_nil]
      · rw [List.append_assoc,
          show (['\\', 'r'] : List Char) ++ '\\' :: 'n' :: q.data =
            '\\' :: 'r' :: '\\' :: 'n' :: q.data from rfl,
          jsSplit_step_escr_escnl hLb,
          jsSplit_no_occ (by decide) (not_occ_of_head_not_mem hq2)]
        simp only [List.map_cons, List.map_nil]
  have hRep : String.mk (removeFirstOcc "\\r".data
      (("// @description " ++ d).data ++ c₂)) =
      String.mk ("// @description " ++ d).data := by
    refine congrArg String.mk ?_
    rcases h₂ with rfl | rfl
    · rw [List.append_nil]
      exact removeFirstOcc_id (not_occ_of_head_not_mem hLb)
    · exact removeFirstOcc_boundary _ hLb
  unfold getFileDescription
  rw [hSplitNl]
  simp only [List.filter_cons, List.filter_nil, hM, eq_self_iff_true, if_true]
  rw [if_neg (show ¬ ("development" = "production") from by decide)]
  show jsTrimS (match ((jsSplitS
      (String.mk ((p.data ++ c₁) ++ '\\' :: 'n' ::
        ((("// @description " ++ d).data ++ c₂) ++ '\\' :: 'n' :: q.data))) "\\n").filter
        (fun token => includesS token "@description")).map
          (fun val => String.mk (removeFirstOcc "\\r".data val.data)) with
    | [] => ""
    | token :: _ => (jsSplitS token "@description").getLastD "") = _
  rw [hTok]
  simp only [List.filter_cons, List.filter_nil, hFp, hFL, Bool.false_eq_true, if_false,
    eq_self_iff_true, if_true, List.map_cons]
  show jsTrimS ((jsSplitS (String.mk (removeFirstOcc "\\r".data
    (("// @description " ++ d).data ++ c₂))) "@description").getLastD "") = _
  rw [hRep, jsSplitS_getLastD _ "@description" (by decide)]

/-- C6: extracting the description from already-normalized content (real line
feeds, optionally preceded by real carriage returns) under the production
flag and from the corresponding escaped content (two-character `\n` and `\r`
escape sequences) under the non-production flag yields the same trimmed
description string, for every description text `d`, surrounding lines `p`,
`q` free of raw line feeds and of backslashes (the preceding line
marker-free), and every choice of plain (`\n`) or Windows (`\r\n`) ending
for each of the two line breaks.  In particular the development branch's
removal of the first `\r` escape from the matched token is what restores
the agreement for Windows line endings. -/
theorem escaped_newline_description_equivalence
    (p q d : String) (r₁ r₂ : Bool)
    (hp1 : '\n' ∉ p.data) (hp2 : '\\' ∉ p.data) (hpm : includesS p "@description" = false)
    (hq1 : '\n' ∉ q.data) (hq2 : '\\' ∉ q.data)
    (hd1 : '\n' ∉ d.data) (hd2 : '\\' ∉ d.data) :
    getFileDescription (p ++ crlf r₁ ++ ("// @description " ++ d) ++ crlf r₂ ++ q)
        "production" =
      getFileDescription (p ++ escCrlf r₁ ++ ("// @description " ++ d) ++ escCrlf r₂ ++ q)
        "development" := by
  cases r₁ <;> cases r₂
  · rw [show p ++ crlf false ++ ("// @description " ++ d) ++ crlf false ++ q =
        String.mk ((p.data ++ []) ++ '\n' ::
          ((("// @description " ++ d).data ++ []) ++ '\n' :: q.data)) from
      str_ext (by simp [crlf, String.data_append]),
      show p ++ escCrlf false ++ ("// @description " ++ d) ++ escCrlf false ++ q =
        String.mk ((p.data ++ []) ++ '\\' :: 'n' ::
          ((("// @description " ++ d).data ++ []) ++ '\\' :: 'n' :: q.data)) from
      str_ext (by simp [escCrlf, String.data_append])]
    rw [prod_side_extraction p q d [] [] (Or.inl rfl) (Or.inl rfl) hp1 hpm hq1 hd1,
      dev_side_extraction p q d [] [] (Or.inl rfl) (Or.inl rfl) hp1 hp2 hpm hq1 hq2 hd1 hd2]
  · rw [show p ++ crlf false ++ ("// @description " ++ d) ++ crlf true ++ q =
        String.mk ((p.data ++ []) ++ '\n' ::
          ((("// @description " ++ d).data ++ ['\r']) ++ '\n' :: q.data)) from
      str_ext (by simp [crlf, String.data_append]),
      show p ++ escCrlf false ++ ("// @description " ++ d) ++ escCrlf true ++ q =
        String.mk ((p.data ++ []) ++ '\\' :: 'n' ::
          ((("// @description " ++ d).data ++ ['\\', 'r']) ++ '\\' :: 'n' :: q.data)) from
      str_ext (by simp [escCrlf, String.data_append])]
    rw [prod_side_extraction p q d [] ['\r'] (Or.inl rfl) (Or.inr rfl) hp1 hpm hq1 hd1,
      dev_side_extraction p q d [] ['\\', 'r'] (Or.inl rfl) (Or.inr rfl)
        hp1 hp2 hpm hq1 hq2 hd1 hd2]
  · rw [show p ++ crlf true ++ ("// @description " ++ d) ++ crlf false ++ q =
        String.mk ((p.data ++ ['\r']) ++ '\n' ::
          ((("// @description " ++ d).data ++ []) ++ '\n' :: q.data)) from
      str_ext (by simp [crlf, String.data_append]),
      show p ++ escCrlf true ++ ("// @description " ++ d) ++ escCrlf false ++ q =
        String.mk ((p.data ++ ['\\', 'r']) ++ '\\' :: 'n' ::
          ((("// @description " ++ d).data ++ []) ++ '\\' :: 'n' :: q.data)) from
      str_ext (by simp [escCrlf, String.data_append])]
    rw [prod_side_extraction p q d ['\r'] [] (Or.inr rfl) (Or.inl rfl) hp1 hpm hq1 hd1,
      dev_side_extraction p q d ['\\', 'r'] [] (Or.inr rfl) (Or.inl rfl)
        hp1 hp2 hpm hq1 hq2 hd1 hd2]
  · rw [show p ++ crlf true ++ ("// @description " ++ d) ++ crlf true ++ q =
        String.mk ((p.data ++ ['\r']) ++ '\n' ::
          ((("// @description " ++ d).data ++ ['\r']) ++ '\n' :: q.data)) from
      str_ext (by simp [crlf, String.data_append]),
      show p ++ escCrlf true ++ ("// @description " ++ d) ++ escCrlf true ++ q =
        String.mk ((p.data ++ ['\\', 'r']) ++ '\\' :: 'n' ::
          ((("// @description " ++ d).data ++ ['\\', 'r']) ++ '\\' :: 'n' :: q.data)) from
      str_ext (by simp [escCrlf, String.data_append])]
    rw [prod_side_extraction p q d ['\r'] ['\r'] (Or.inr rfl) (Or.inr rfl) hp1 hpm hq1 hd1,
      dev_side_extraction p q d ['\\', 'r'] ['\\', 'r'] (Or.inr rfl) (Or.inr rfl)
        hp1 hp2 hpm hq1 hq2 hd1 hd2]

set_option maxRecDepth 20000 in
theorem escaped_newline_description_equivalence_witness :
    ('\n' ∉ "code1".data) ∧ ('\\' ∉ "code1".data) ∧
      includesS "code1" "@description" = false ∧
      ('\n' ∉ "rest".data) ∧ ('\\' ∉ "rest".data) ∧
      ('\n' ∉ "setup the user".data) ∧ ('\\' ∉ "setup the user".data) ∧
      getFileDescription
          ("code1" ++ crlf true ++ ("// @description " ++ "setup the user") ++
            crlf true ++ "rest")
          "production" =
        getFileDescription
          ("code1" ++ escCrlf true ++ ("// @description " ++ "setup the user") ++
            escCrlf true ++ "rest")
          "development" :=
  ⟨by decide, by decide, by decide, by decide, by decide, by decide, by decide,
    escaped_newline_description_equivalence "code1" "rest" "setup the user" true true
      (by decide) (by decide) (by decide) (by decide) (by decide) (by decide) (by decide)⟩

end MetaGen

namespace MetaGen

/-! ### First-creation-wins (claim C7) -/

theorem lookupFolder_update_ne {fl : List (String × Dir)} {k j : String} {v : Dir}
    (h : j ≠ k) : lookupFolder (updateFolder fl k v) j = lookupFolder fl j := by
  induction fl with
  | nil => rfl
  | cons p rest ih =>
    rcases p with ⟨k', d'⟩
    by_cases hk : k' = k
    · have hkj : ¬ (k' = j) := fun hj => h (hj.symm.trans hk)
      simp only [updateFolder, if_pos hk, lookupFolder, if_neg hkj]
    · by_cases hj : k' = j
      · simp only [updateFolder, if_neg hk, lookupFolder, if_pos hj]
      · simp only [updateFolder, if_neg hk, lookupFolder, if_neg hj]
        exact ih

theorem lookupFolder_update_self {fl : List (String × Dir)} {k : String} {v sub : Dir}
    (h : lookupFolder fl k = some sub) : lookupFolder (updateFolder fl k v) k = some v := by
  induction fl with
  | nil => simp [lookupFolder] at h
  | cons p rest ih =>
    rcases p with ⟨k', d'⟩
    by_cases hk : k' = k
    · subst hk
      simp [updateFolder, lookupFolder]
    · simp only [lookupFolder, if_neg hk] at h
      simp only [updateFolder, if_neg hk, lookupFolder, if_neg hk]
      exact ih h

theorem lookupFolder_append {fl : List (String × Dir)} {k j : String} {v : Dir} (h : j ≠ k) :
    lookupFolder (fl ++ [(k, v)]) j = lookupFolder fl j := by
  induction fl with
  | nil =>
    simp only [List.nil_append, lookupFolder]
    rw [if_neg (fun hj => h hj.symm)]
  | cons p rest ih =>
    rcases p with ⟨k', d'⟩
    simp only [List.cons_append, lookupFolder]
    by_cases hj : k' = j
    · rw [if_pos hj, if_pos hj]
    · rw [if_neg hj, if_neg hj]
      exact ih

theorem lookupFolder_append_self {fl : List (String × Dir)} {k : String} {v : Dir}
    (h : lookupFolder fl k = none) : lookupFolder (fl ++ [(k, v)]) k = some v := by
  induction fl with
  | nil => simp [lookupFolder]
  | cons p rest ih =>
    rcases p with ⟨k', d'⟩
    by_cases hk : k' = k
    · subst hk
      simp [lookupFolder] at h
    · simp only [lookupFolder, if_neg hk] at h
      simp only [List.cons_append, lookupFolder, if_neg hk]
      exact ih h


/-- One `insertFile` walk never changes the annotation fields (description,
icon, default action) or the path of any directory node that already exists:
existing nodes are only re-traversed (the guard at src/index.js line 203),
never re-annotated, whatever the folder-annotation index holds. -/
theorem insertFile_preserves (fi : List FolderAnnotation) :
    ∀ (path : List String) (visited : List String) (d : Dir) (f : FileObject)
      (kp : List String) (n : Dir), findNode d kp = some n →
      ∃ n', findNode (insertFile fi visited path d f) kp = some n' ∧
        n'.description = n.description ∧ n'.icon = n.icon ∧
        n'.defaultAction = n.defaultAction ∧ n'.parentPath = n.parentPath := by
  intro path
  induction path with
  | nil =>
    intro visited d f kp n h
    rcases d with ⟨files, folders, pp, de, da, ic⟩
    cases kp with
    | nil =>
      cases h with
      | refl => exact ⟨_, rfl, rfl, rfl, rfl, rfl⟩
    | cons j kpr =>
      refine ⟨n, ?_, rfl, rfl, rfl, rfl⟩
      simpa [insertFile, findNode, Dir.folders] using h
  | cons folder path ih =>
    intro visited d f kp n h
    rcases d with ⟨files, folders, pp, de, da, ic⟩
    cases kp with
    | nil =>
      cases h with
      | refl =>
        rcases hlk : lookupFolder folders folder with - | sub <;>
          refine ⟨_, rfl, ?_, ?_, ?_, ?_⟩ <;>
            simp [insertFile, hlk, Dir.description, Dir.icon, Dir.defaultAction, Dir.parentPath]
    | cons j kpr =>
      simp only [findNode, Dir.folders] at h
      rcases hj : lookupFolder folders j with - | subj
      · rw [hj] at h
        exact absurd h (by simp)
      · rw [hj] at h
        rcases hlk : lookupFolder folders folder with - | sub
        · have hne : j ≠ folder := by
            intro hjf
            rw [hjf, hlk] at hj
            exact absurd hj (by simp)
          refine ⟨n, ?_, rfl, rfl, rfl, rfl⟩
          simp only [insertFile, hlk, findNode, Dir.folders]
          rw [lookupFolder_append hne, hj, h]
        · by_cases hjf : j = folder
          · subst hjf
            rw [hj] at hlk
            injection hlk with hsub
            subst hsub
            rcases ih (visited ++ [j]) subj f kpr n h with ⟨n', hn', hfields⟩
            refine ⟨n', ?_, hfields⟩
            simp only [insertFile, hj, findNode, Dir.folders]
            rw [lookupFolder_update_self hj]
            exact hn'
          · refine ⟨n, ?_, rfl, rfl, rfl, rfl⟩
            simp only [insertFile, hlk, findNode, Dir.folders]
            rw [lookupFolder_update_ne hjf, hj, h]

/-- `addAsset` preserves every existing node's annotation fields. -/
theorem addAsset_preserves (fi : List FolderAnnotation) (env : String) (d : Dir)
    (asset : String × String) (kp : List String) (n : Dir)
    (h : findNode d kp = some n) :
    ∃ n', findNode (addAsset fi env d asset) kp = some n' ∧
      n'.description = n.description ∧ n'.icon = n.icon ∧
      n'.defaultAction = n.defaultAction ∧ n'.parentPath = n.parentPath := by
  unfold addAsset
  by_cases hv : isValidFile asset.2 asset.1 = true
  · rw [if_pos hv]
    exact insertFile_preserves fi (fileSegs asset.1).1 [""] d _ kp n h
  · rw [if_neg hv]
    exact ⟨n, h, rfl, rfl, rfl, rfl⟩

theorem foldl_addAsset_preserves (fi : List FolderAnnotation) (env : String) :
    ∀ (extra : List (String × String)) (d : Dir) (kp : List String) (n : Dir),
      findNode d kp = some n →
      ∃ n', findNode (List.foldl (addAsset fi env) d extra) kp = some n' ∧
        n'.description = n.description ∧ n'.icon = n.icon ∧
        n'.defaultAction = n.defaultAction ∧ n'.parentPath = n.parentPath := by
  intro extra
  induction extra with
  | nil =>
    intro d kp n h
    exact ⟨n, h, rfl, rfl, rfl, rfl⟩
  | cons a rest ih =>
    intro d kp n h
    rcases addAsset_preserves fi env d a kp n h with ⟨n1, h1, e1, e2, e3, e4⟩
    rcases ih (addAsset fi env d a) kp n1 h1 with ⟨n2, h2, f1, f2, f3, f4⟩
    exact ⟨n2, h2, f1.trans e1, f2.trans e2, f3.trans e3, f4.trans e4⟩

/-- C7: first-creation-wins.  A directory node already created while
processing some artifacts keeps its `description`, `icon` and
`defaultAction` (and its path) unchanged while any later artifacts sharing
its path prefix are processed; since this holds for every folder-annotation
index, re-visiting a node cannot re-run the annotation lookup or overwrite
its fields. -/
theorem first_creation_wins (assets extra : List (String × String))
    (pd pic env : String) (fi : List FolderAnnotation) (kp : List String) (n : Dir)
    (h : findNode (generateDirectoryObject assets pd pic fi env) kp = some n) :
    ∃ n', findNode (generateDirectoryObject (assets ++ extra) pd pic fi env) kp = some n' ∧
      n'.description = n.description ∧ n'.icon = n.icon ∧
      n'.defaultAction = n.defaultAction ∧ n'.parentPath = n.parentPath := by
  unfold generateDirectoryObject at h ⊢
  rw [List.foldl_append]
  exact foldl_addAsset_preserves fi env extra _ kp n h

set_option maxRecDepth 40000 in
theorem first_creation_wins_witness :
    ∃ n', findNode
        (generateDirectoryObject ([("a/x.js", "code")] ++ [("a/y.js", "more")]) "" ""
          [ FolderAnnotation.mk "/b" "other annotation" "" "" "other"] "production") ["a"] =
        some n' ∧
      n'.description = (Dir.mk [FileObject.mk "x.js" ""] [] "/a/" "" "" "").description ∧
      n'.icon = (Dir.mk [FileObject.mk "x.js" ""] [] "/a/" "" "" "").icon ∧
      n'.defaultAction = (Dir.mk [FileObject.mk "x.js" ""] [] "/a/" "" "" "").defaultAction ∧
      n'.parentPath = (Dir.mk [FileObject.mk "x.js" ""] [] "/a/" "" "" "").parentPath :=
  first_creation_wins [("a/x.js", "code")] [("a/y.js", "more")] "" "" "production"
    [ FolderAnnotation.mk "/b" "other annotation" "" "" "other"]
    ["a"] (Dir.mk [FileObject.mk "x.js" ""] [] "/a/" "" "" "") rfl

end MetaGen

namespace MetaGen

/-! ### Unmatched folder annotations (claim C4) -/

theorem folderInfoLookup_append_ne (fdl : List FolderAnnotation) (ann : FolderAnnotation)
    (key : String) (h : ann.path ≠ key) :
    folderInfoLookup (fdl ++ [ann]) key = folderInfoLookup fdl key := by
  unfold folderInfoLookup
  rw [List.filter_append]
  have : List.filter (fun a => decide (a.path = key)) [ann] = [] := by
    simp [List.filter, h]
  rw [this, List.append_nil]

/-- `insertFile` only consults the annotation index at the accumulated
visited paths (`insertKeys`), so two indexes agreeing there produce the same
tree. -/
theorem insertFile_congr :
    ∀ (path visited : List String) (d : Dir) (f : FileObject)
      (fi1 fi2 : List FolderAnnotation),
      (∀ key ∈ insertKeys visited path, folderInfoLookup fi1 key = folderInfoLookup fi2 key) →
      insertFile fi1 visited path d f = insertFile fi2 visited path d f := by
  intro path
  induction path with
  | nil =>
    intro visited d f fi1 fi2 _
    rcases d with ⟨files, folders, pp, de, da, ic⟩
    rfl
  | cons folder path ih =>
    intro visited d f fi1 fi2 hagree
    rcases d with ⟨files, folders, pp, de, da, ic⟩
    have htail : ∀ key ∈ insertKeys (visited ++ [folder]) path,
        folderInfoLookup fi1 key = folderInfoLookup fi2 key := by
      intro key hk
      exact hagree key (by simp [insertKeys, hk])
    rcases hlk : lookupFolder folders folder with - | sub
    · have hkey := hagree (String.intercalate "/" (visited ++ [folder])) (by simp [insertKeys])
      simp only [insertFile, hlk]
      rw [hkey, ih (visited ++ [folder]) _ f fi1 fi2 htail]
    · simp only [insertFile, hlk]
      rw [ih (visited ++ [folder]) sub f fi1 fi2 htail]

theorem foldl_addAsset_congr (env : String) :
    ∀ (assets : List (String × String)) (d : Dir) (fi1 fi2 : List FolderAnnotation),
      (∀ key ∈ lookupKeys assets, folderInfoLookup fi1 key = folderInfoLookup fi2 key) →
      List.foldl (addAsset fi1 env) d assets = List.foldl (addAsset fi2 env) d assets := by
  intro assets
  induction assets with
  | nil =>
    intro d fi1 fi2 _
    rfl
  | cons a rest ih =>
    intro d fi1 fi2 h
    simp only [List.foldl_cons]
    have hstep : addAsset fi1 env d a = addAsset fi2 env d a := by
      unfold addAsset
      by_cases hv : isValidFile a.2 a.1 = true
      · rw [if_pos hv, if_pos hv]
        refine insertFile_congr _ _ _ _ fi1 fi2 ?_
        intro key hk
        refine h key ?_
        simp only [lookupKeys, List.flatMap_cons, List.mem_append]
        refine Or.inl ?_
        rw [if_pos hv]
        exact hk
      · rw [if_neg hv, if_neg hv]
    rw [hstep]
    refine ih (addAsset fi2 env d a) fi1 fi2 ?_
    intro key hk
    refine h key ?_
    simp only [lookupKeys, List.flatMap_cons, List.mem_append]
    exact Or.inr (by simpa [lookupKeys] using hk)

/-- C4 (amended): a folder annotation whose path matches no directory
actually created from the artifacts' paths (no accumulated lookup key)
leaves every generated metadata document unchanged.  (The icon entries of
the build output are NOT invariant: see the counterexample.) -/
theorem unmatched_annotation_documents_unchanged (assets : List (String × String))
    (pd pic env pkg : String) (fdl : List FolderAnnotation) (ann : FolderAnnotation)
    (h : ann.path ∉ lookupKeys assets) :
    generateMetaJson (generateDirectoryObject assets pd pic (fdl ++ [ann]) env) pkg =
      generateMetaJson (generateDirectoryObject assets pd pic fdl env) pkg := by
  refine congrArg (generateMetaJson · pkg) ?_
  unfold generateDirectoryObject
  refine foldl_addAsset_congr env assets _ (fdl ++ [ann]) fdl ?_
  intro key hk
  refine folderInfoLookup_append_ne fdl ann key ?_
  intro hpk
  exact h (hpk ▸ hk)

set_option maxRecDepth 20000 in
theorem unmatched_annotation_documents_unchanged_witness :
    (( FolderAnnotation.mk "/zzz" "ghost" "" "" "").path ∉ lookupKeys [("a/x.js", "code")]) ∧
      generateMetaJson
          (generateDirectoryObject [("a/x.js", "code")] "" ""
            ([] ++ [ FolderAnnotation.mk "/zzz" "ghost" "" "" ""]) "production") "pkg" =
        generateMetaJson (generateDirectoryObject [("a/x.js", "code")] "" "" [] "production")
          "pkg" :=
  ⟨by decide,
    unmatched_annotation_documents_unchanged [("a/x.js", "code")] "" "" "production" "pkg" []
      ( FolderAnnotation.mk "/zzz" "ghost" "" "" "") (by decide)⟩

set_option maxRecDepth 20000 in
/-- C4 counterexample: the annotation at path `/zzz` matches no directory
implied by the single artifact `a/x.js` (its lookup keys are only `/a`), yet
adding it changes the build output: its local `img/z.png` icon reference is
materialised into an icon entry, so the whole output is not identical. -/
theorem unmatched_annotation_icon_output_cex :
    ("/zzz" ∉ lookupKeys [("a/x.js", "code")]) ∧
      emittedIconSources [ FolderAnnotation.mk "/zzz" "" "img/z.png" "" ""] = ["img/z.png"] ∧
      emittedIconSources [] = [] ∧ (["img/z.png"] : List String) ≠ [] := by
  refine ⟨by decide, by decide, by decide, by decide⟩

end MetaGen

namespace MetaGen

/-! ### Structural tools for the directory tree -/

theorem toFinset_map_list {α β : Type} [DecidableEq α] [DecidableEq β] (f : α → β) :
    ∀ l : List α, (l.map f).toFinset = l.toFinset.image f := by
  intro l
  induction l with
  | nil => simp
  | cons a t ih => simp [ih]

theorem Dir.inductionOn (P : Dir → Prop)
    (h : ∀ files folders pp de da ic,
      (∀ p ∈ folders, P p.2) → P (Dir.mk files folders pp de da ic)) :
    ∀ d, P d
  | Dir.mk fs fl pp de da ic =>
    h fs fl pp de da ic (fun p hp => Dir.inductionOn P h p.2)
termination_by d => sizeOf d
decreasing_by
  have h1 : sizeOf p < sizeOf fl := List.sizeOf_lt_of_mem hp
  have h2 : sizeOf p.2 < sizeOf p := by
    rcases p with ⟨a, b⟩
    simp only [Prod.mk.sizeOf_spec]
    omega
  simp only [Dir.mk.sizeOf_spec]
  omega

theorem nodeCountFolders_eq_sum :
    ∀ l : List (String × Dir),
      nodeCountFolders l = (l.map (fun e => Dir.nodeCount e.2)).sum := by
  intro l
  induction l with
  | nil => rfl
  | cons e rest ih =>
    rcases e with ⟨k, sub⟩
    simp only [nodeCountFolders, ih, List.map_cons, List.sum_cons]

theorem nodeCountFolders_perm {l₁ l₂ : List (String × Dir)} (h : l₁.Perm l₂) :
    nodeCountFolders l₁ = nodeCountFolders l₂ := by
  rw [nodeCountFolders_eq_sum, nodeCountFolders_eq_sum, (h.map _).sum_eq]

theorem generateMetaJsonFolders_length (fl : List (String × Dir))
    (hm : ∀ p ∈ fl, ∀ nm, (generateMetaJson p.2 nm).length = Dir.nodeCount p.2) :
    (generateMetaJsonFolders fl).length = nodeCountFolders fl := by
  induction fl with
  | nil => rfl
  | cons q rest ih =>
    rcases q with ⟨k, sub⟩
    have hq : (generateMetaJson sub k).length = Dir.nodeCount sub :=
      hm (k, sub) (List.mem_cons_self _ _) k
    rw [generateMetaJsonFolders_cons]
    simp only [nodeCountFolders, List.length_append]
    rw [ih (fun p hp => hm p (List.mem_cons_of_mem _ hp)), hq]
    omega

theorem generateMetaJson_length :
    ∀ (d : Dir) (nm : String), (generateMetaJson d nm).length = Dir.nodeCount d := by
  intro d
  induction d using Dir.inductionOn with
  | h files folders pp de da ic ih =>
    intro nm
    rw [generateMetaJson_eq]
    simp only [Dir.nodeCount, List.length_cons]
    rw [generateMetaJsonFolders_length (jsObjKeys folders)
      (fun p hp => ih p (mem_jsObjKeys.mp hp)),
      nodeCountFolders_perm (perm_jsObjKeys folders)]
    omega

theorem keyPathsFolders_length (fl : List (String × Dir))
    (hm : ∀ p ∈ fl, (Dir.keyPaths p.2).length = Dir.nodeCount p.2) :
    (keyPathsFolders fl).length = nodeCountFolders fl := by
  induction fl with
  | nil => rfl
  | cons q rest ih =>
    rcases q with ⟨k, sub⟩
    have hq : (Dir.keyPaths sub).length = Dir.nodeCount sub :=
      hm (k, sub) (List.mem_cons_self _ _)
    simp only [keyPathsFolders, nodeCountFolders, List.length_append, List.length_map]
    rw [ih (fun p hp => hm p (List.mem_cons_of_mem _ hp)), hq]

theorem keyPaths_length : ∀ d : Dir, (Dir.keyPaths d).length = Dir.nodeCount d := by
  intro d
  induction d using Dir.inductionOn with
  | h files folders pp de da ic ih =>
    simp only [Dir.keyPaths, Dir.nodeCount, List.length_cons]
    rw [keyPathsFolders_length folders ih]
    omega

end MetaGen

namespace MetaGen

theorem splitFirst_before_single {c : Char} :
    ∀ {cs b a : List Char}, splitFirst [c] cs = some (b, a) → c ∉ b := by
  intro cs
  induction cs with
  | nil => intro b a h; simp [splitFirst] at h
  | cons x rest ih =>
    intro b a h
    by_cases hpre : [c] <+: (x :: rest)
    · rw [splitFirst_cons_pos hpre] at h
      cases h with
      | refl => simp
    · rw [splitFirst_cons_neg hpre] at h
      rcases hsf : splitFirst [c] rest with - | ⟨b', a'⟩ <;> rw [hsf] at h
      · exact absurd h (by simp)
      · cases h with
        | refl =>
          have hxc : x ≠ c := by
            intro hx
            subst hx
            exact hpre ⟨rest, rfl⟩
          intro hmem
          rcases List.mem_cons.mp hmem with h1 | h1
          · exact hxc h1.symm
          · exact ih hsf h1

theorem occ_single_of_mem {c : Char} {cs : List Char} (h : c ∈ cs) : [c] <:+: cs := by
  rcases List.append_of_mem h with ⟨s, t, rfl⟩
  exact ⟨s, t, by simp⟩

theorem jsSplit_single_noMem {c : Char} :
    ∀ cs, ∀ tok ∈ jsSplit [c] cs, c ∉ tok := by
  suffices hs : ∀ n cs, cs.length = n → ∀ tok ∈ jsSplit [c] cs, c ∉ tok by
    intro cs
    exact hs cs.length cs rfl
  intro n
  induction n using Nat.strong_induction_on with
  | _ n ih =>
    intro cs hn tok htok
    rcases hsf : splitFirst [c] cs with - | ⟨b, a⟩
    · rw [jsSplit_of_none hsf] at htok
      rcases List.mem_singleton.mp htok with rfl
      intro hmem
      exact (splitFirst_none (by simp)).mp hsf (occ_single_of_mem hmem)
    · rw [jsSplit_of_some (by simp) hsf] at htok
      rcases List.mem_cons.mp htok with rfl | h1
      · exact splitFirst_before_single hsf
      · have ha : a.length < n := hn ▸ splitFirst_len (by simp) hsf
        exact ih a.length ha a rfl tok h1

theorem fileSegs_noSlash (filename : String) : ∀ s ∈ (fileSegs filename).1, noSlash s := by
  intro s hs
  have hmem : s ∈ jsSplitS filename "/" := by
    unfold fileSegs at hs
    simp only at hs
    have hsub : s ∈ (jsSplitS filename "/").dropLast := by
      by_cases hc : ((jsSplitS filename "/").dropLast).head? = some ""
      · rw [if_pos hc] at hs
        exact (List.tail_sublist _).subset hs
      · rw [if_neg hc] at hs
        exact hs
    exact (List.dropLast_sublist _).subset hsub
  unfold jsSplitS at hmem
  rcases List.mem_map.mp hmem with ⟨tok, htok, rfl⟩
  exact @jsSplit_single_noMem '/' filename.data tok htok

theorem insertFile_fields (fi : List FolderAnnotation) (path visited : List String) (d : Dir)
    (f : FileObject) :
    (insertFile fi visited path d f).parentPath = d.parentPath ∧
      (insertFile fi visited path d f).description = d.description ∧
      (insertFile fi visited path d f).defaultAction = d.defaultAction ∧
      (insertFile fi visited path d f).icon = d.icon := by
  rcases d with ⟨files, folders, pp, de, da, ic⟩
  cases path with
  | nil => exact ⟨rfl, rfl, rfl, rfl⟩
  | cons folder rest =>
    rcases hlk : lookupFolder folders folder with - | sub <;>
      simp [insertFile, hlk, Dir.parentPath, Dir.description, Dir.defaultAction, Dir.icon]

theorem lookupFolder_mem : ∀ (fl : List (String × Dir)) (k : String) (sub : Dir),
    lookupFolder fl k = some sub → (k, sub) ∈ fl := by
  intro fl
  induction fl with
  | nil => intro k sub h; simp [lookupFolder] at h
  | cons p rest ih =>
    intro k sub h
    rcases p with ⟨k', d'⟩
    by_cases hk : k' = k
    · subst hk
      simp only [lookupFolder, if_pos rfl] at h
      injection h with h
      subst h
      exact List.mem_cons_self _ _
    · simp only [lookupFolder, if_neg hk] at h
      exact List.mem_cons_of_mem _ (ih k sub h)

theorem updateFolder_keys : ∀ (fl : List (String × Dir)) (k : String) (v : Dir),
    (updateFolder fl k v).map Prod.fst = fl.map Prod.fst := by
  intro fl
  induction fl with
  | nil => intro k v; rfl
  | cons p rest ih =>
    intro k v
    rcases p with ⟨k', d'⟩
    by_cases hk : k' = k
    · simp [updateFolder, if_pos hk]
    · simp only [updateFolder, if_neg hk, List.map_cons]
      rw [ih k v]

theorem mem_updateFolder : ∀ (fl : List (String × Dir)) (k : String) (v : Dir)
    (p : String × Dir), p ∈ updateFolder fl k v → p ∈ fl ∨ (p.1 = k ∧ p.2 = v) := by
  intro fl
  induction fl with
  | nil => intro k v p h; exact absurd h (List.not_mem_nil p)
  | cons q rest ih =>
    intro k v p h
    rcases q with ⟨k', d'⟩
    by_cases hk : k' = k
    · rw [updateFolder, if_pos hk] at h
      rcases List.mem_cons.mp h with rfl | h1
      · exact Or.inr ⟨hk, rfl⟩
      · exact Or.inl (List.mem_cons_of_mem _ h1)
    · rw [updateFolder, if_neg hk] at h
      rcases List.mem_cons.mp h with rfl | h1
      · exact Or.inl (List.mem_cons_self _ _)
      · rcases ih k v p h1 with h2 | h2
        · exact Or.inl (List.mem_cons_of_mem _ h2)
        · exact Or.inr h2

end MetaGen

namespace MetaGen

theorem Wf_inv {files : List FileObject} {folders : List (String × Dir)}
    {pp de da ic : String} (h : Wf (Dir.mk files folders pp de da ic)) :
    (folders.map Prod.fst).Nodup ∧
      (∀ p ∈ folders, noSlash p.1 ∧ Dir.parentPath p.2 = pp ++ p.1 ++ "/") ∧
      (∀ p ∈ folders, Wf p.2) := by
  cases h
  refine ⟨?_, ?_, ?_⟩ <;> assumption

theorem lookupFolder_none : ∀ (fl : List (String × Dir)) (k : String),
    lookupFolder fl k = none ↔ k ∉ fl.map Prod.fst := by
  intro fl
  induction fl with
  | nil => intro k; simp [lookupFolder]
  | cons p rest ih =>
    intro k
    rcases p with ⟨k', d'⟩
    by_cases hk : k' = k
    · subst hk
      simp [lookupFolder]
    · simp only [lookupFolder, if_neg hk, List.map_cons, List.mem_cons]
      rw [ih k]
      constructor
      · intro h1 h2
        rcases h2 with h2 | h2
        · exact hk h2.symm
        · exact h1 h2
      · intro h1
        exact fun h2 => h1 (Or.inr h2)

theorem keyPathsFolders_append : ∀ l1 l2 : List (String × Dir),
    keyPathsFolders (l1 ++ l2) = keyPathsFolders l1 ++ keyPathsFolders l2 := by
  intro l1 l2
  induction l1 with
  | nil => rfl
  | cons q rest ih =>
    rcases q with ⟨k, sub⟩
    simp only [List.cons_append, keyPathsFolders]
    rw [List.append_assoc]
    exact congrArg (List.map (fun kp => k :: kp) (Dir.keyPaths sub) ++ ·) ih

theorem mem_keyPathsFolders : ∀ (fl : List (String × Dir)) (x : List String),
    x ∈ keyPathsFolders fl ↔ ∃ p ∈ fl, ∃ q ∈ Dir.keyPaths p.2, x = p.1 :: q := by
  intro fl
  induction fl with
  | nil => intro x; simp [keyPathsFolders]
  | cons e rest ih =>
    intro x
    rcases e with ⟨k, sub⟩
    simp only [keyPathsFolders, List.mem_append, List.mem_map, ih, List.mem_cons]
    constructor
    · rintro (⟨q, hq, rfl⟩ | ⟨p, hp, q, hq, rfl⟩)
      · exact ⟨(k, sub), Or.inl rfl, q, hq, rfl⟩
      · exact ⟨p, Or.inr hp, q, hq, rfl⟩
    · rintro ⟨p, hp | hp, q, hq, rfl⟩
      · subst hp
        exact Or.inl ⟨q, hq, rfl⟩
      · exact Or.inr ⟨p, hp, q, hq, rfl⟩

theorem kpf_update_toFinset : ∀ (fl : List (String × Dir)) (k : String) (sub W : Dir)
    (S : Finset (List String)),
    lookupFolder fl k = some sub →
    (Dir.keyPaths W).toFinset = (Dir.keyPaths sub).toFinset ∪ S →
    (keyPathsFolders (updateFolder fl k W)).toFinset =
      (keyPathsFolders fl).toFinset ∪ S.image (fun q => k :: q) := by
  intro fl
  induction fl with
  | nil => intro k sub W S h; simp [lookupFolder] at h
  | cons e rest ih =>
    intro k sub W S hlk hW
    rcases e with ⟨k', d'⟩
    by_cases hk : k' = k
    · subst hk
      simp only [lookupFolder, if_pos rfl] at hlk
      injection hlk with hlk
      subst hlk
      simp only [updateFolder, if_pos rfl, keyPathsFolders, List.toFinset_append,
        toFinset_map_list]
      rw [hW, Finset.image_union, Finset.union_right_comm]
    · simp only [lookupFolder, if_neg hk] at hlk
      simp only [updateFolder, if_neg hk, keyPathsFolders, List.toFinset_append]
      rw [ih k sub W S hlk hW, Finset.union_assoc]

end MetaGen

namespace MetaGen

theorem Wf_leaf (files : List FileObject) (pp de da ic : String) :
    Wf (Dir.mk files [] pp de da ic) :=
  Wf.mk _ _ _ _ _ _ (by simp) (by simp) (by simp)

theorem insert_union_insert {α : Type} [DecidableEq α] (a : α) (s t : Finset α) :
    insert a s ∪ insert a t = insert a (s ∪ t) := by
  rw [Finset.insert_union, Finset.union_insert, Finset.insert_idem]

theorem inits_cons_toFinset (folder : String) (path : List String) :
    ((folder :: path).inits).toFinset =
      insert ([] : List String) ((path.inits.toFinset).image (fun q => folder :: q)) := by
  rw [List.inits_cons, List.toFinset_cons, toFinset_map_list]

theorem nil_mem_inits (path : List String) : ([] : List String) ∈ path.inits :=
  (List.mem_inits _ _).mpr ⟨path, rfl⟩

/-- The heart of the tree-shape invariant: one `insertFile` keeps the tree
well-formed and adds exactly the prefixes of the inserted directory path to
the set of node key paths. -/
theorem insertFile_wf_keyPaths (fi : List FolderAnnotation) :
    ∀ (path visited : List String) (d : Dir) (f : FileObject),
      Wf d → (∀ s ∈ path, noSlash s) →
      Wf (insertFile fi visited path d f) ∧
      (Dir.keyPaths (insertFile fi visited path d f)).toFinset =
        (Dir.keyPaths d).toFinset ∪ path.inits.toFinset := by
  intro path
  induction path with
  | nil =>
    intro visited d f hwf _
    rcases d with ⟨files, folders, pp, de, da, ic⟩
    rcases Wf_inv hwf with ⟨nodup, keys, child⟩
    refine ⟨Wf.mk _ _ _ _ _ _ nodup keys child, ?_⟩
    show (Dir.keyPaths (Dir.mk (files ++ [f]) folders pp de da ic)).toFinset =
      (Dir.keyPaths (Dir.mk files folders pp de da ic)).toFinset ∪
        ([] : List String).inits.toFinset
    simp only [Dir.keyPaths, List.toFinset_cons]
    rw [show ([] : List String).inits = [[]] from rfl]
    simp only [List.toFinset_cons, List.toFinset_nil]
    rw [Finset.insert_union, Finset.union_insert, Finset.union_empty, Finset.insert_idem]
  | cons folder path ih =>
    intro visited d f hwf hns
    rcases d with ⟨files, folders, pp, de, da, ic⟩
    rcases Wf_inv hwf with ⟨nodup, keys, child⟩
    have hnsf : noSlash folder := hns folder (List.mem_cons_self _ _)
    have hnst : ∀ s ∈ path, noSlash s := fun s hs => hns s (List.mem_cons_of_mem _ hs)
    rcases hlk : lookupFolder folders folder with - | sub
    · obtain ⟨A, B, C, hEq⟩ :
        ∃ A B C,
          insertFile fi visited (folder :: path) (Dir.mk files folders pp de da ic) f =
            Dir.mk files
              (folders ++ [(folder,
                insertFile fi (visited ++ [folder]) path
                  (Dir.mk [] [] (pp ++ folder ++ "/") A B C) f)]) pp de da ic := by
        refine ⟨(Option.map FolderAnnotation.description
            (folderInfoLookup fi (String.intercalate "/" (visited ++ [folder])))).getD "",
          (if (Option.map FolderAnnotation.defaultAction
                (folderInfoLookup fi (String.intercalate "/" (visited ++ [folder])))).getD "" ≠ ""
            then (Option.map FolderAnnotation.defaultAction
              (folderInfoLookup fi (String.intercalate "/" (visited ++ [folder])))).getD ""
            else ""),
          (Option.map FolderAnnotation.distIconPath
            (folderInfoLookup fi (String.intercalate "/" (visited ++ [folder])))).getD "", ?_⟩
        simp only [insertFile, hlk]
      obtain ⟨hwfW, hsetW⟩ :=
        ih (visited ++ [folder]) (Dir.mk [] [] (pp ++ folder ++ "/") A B C) f
          (Wf_leaf _ _ _ _ _) hnst
      have hppW := (insertFile_fields fi path (visited ++ [folder])
        (Dir.mk [] [] (pp ++ folder ++ "/") A B C) f).1
      have hkW : folder ∉ folders.map Prod.fst := (lookupFolder_none folders folder).mp hlk
      rw [hEq]
      constructor
      · refine Wf.mk _ _ _ _ _ _ ?_ ?_ ?_
        · rw [List.map_append]
          refine List.Nodup.append nodup (by simp) ?_
          rw [List.disjoint_left]
          intro a ha hmem
          simp only [List.map_cons, List.map_nil, List.mem_singleton] at hmem
          exact hkW (hmem ▸ ha)
        · intro p hp
          rcases List.mem_append.mp hp with h1 | h1
          · exact keys p h1
          · rcases List.mem_singleton.mp h1 with rfl
            refine ⟨hnsf, ?_⟩
            rw [hppW]
            rfl
        · intro p hp
          rcases List.mem_append.mp hp with h1 | h1
          · exact child p h1
          · rcases List.mem_singleton.mp h1 with rfl
            exact hwfW
      · simp only [Dir.keyPaths, keyPathsFolders_append, keyPathsFolders,
          List.append_nil, List.toFinset_cons, List.toFinset_append, toFinset_map_list,
          inits_cons_toFinset]
        rw [hsetW]
        have hleaf : (Dir.keyPaths (Dir.mk [] [] (pp ++ folder ++ "/") A B C)).toFinset =
            {([] : List String)} := by
          simp [Dir.keyPaths, keyPathsFolders]
        rw [hleaf, Finset.image_union, Finset.image_singleton]
        have habs : ({[folder]} : Finset (List String)) ∪
            (path.inits.toFinset).image (fun q => folder :: q) =
              (path.inits.toFinset).image (fun q => folder :: q) := by
          refine Finset.union_eq_right.mpr ?_
          refine Finset.singleton_subset_iff.mpr ?_
          exact Finset.mem_image.mpr ⟨[], List.mem_toFinset.mpr (nil_mem_inits path), rfl⟩
        rw [habs, insert_union_insert]
    · obtain ⟨hfmem, hwfsub, hkeysub⟩ :
        (folder, sub) ∈ folders ∧ Wf sub ∧
          (noSlash folder ∧ Dir.parentPath sub = pp ++ folder ++ "/") := by
        have hm := lookupFolder_mem folders folder sub hlk
        exact ⟨hm, child _ hm, keys _ hm⟩
      obtain ⟨hwfW, hsetW⟩ := ih (visited ++ [folder]) sub f hwfsub hnst
      have hppW := (insertFile_fields fi path (visited ++ [folder]) sub f).1
      simp only [insertFile, hlk]
      constructor
      · refine Wf.mk _ _ _ _ _ _ ?_ ?_ ?_
        · rw [updateFolder_keys]
          exact nodup
        · intro p hp
          rcases mem_updateFolder folders folder _ p hp with h1 | ⟨h1, h2⟩
          · exact keys p h1
          · rcases p with ⟨pk, pd⟩
            dsimp only at h1 h2
            subst h1
            subst h2
            refine ⟨hkeysub.1, ?_⟩
            rw [hppW, hkeysub.2]
        · intro p hp
          rcases mem_updateFolder folders folder _ p hp with h1 | ⟨h1, h2⟩
          · exact child p h1
          · rcases p with ⟨pk, pd⟩
            dsimp only at h2
            subst h2
            exact hwfW
      · simp only [Dir.keyPaths, List.toFinset_cons, inits_cons_toFinset]
        rw [kpf_update_toFinset folders folder sub _ (path.inits.toFinset) hlk hsetW,
          insert_union_insert]

end MetaGen

namespace MetaGen

theorem keyPathsFolders_nodup (fl : List (String × Dir))
    (hkeys : (fl.map Prod.fst).Nodup)
    (hm : ∀ p ∈ fl, (Dir.keyPaths p.2).Nodup) :
    (keyPathsFolders fl).Nodup := by
  induction fl with
  | nil => simp [keyPathsFolders]
  | cons e rest ih =>
    rcases e with ⟨k, sub⟩
    rcases List.nodup_cons.mp hkeys with ⟨hknot, hkrest⟩
    simp only [keyPathsFolders]
    refine List.Nodup.append ?_ ?_ ?_
    · refine List.Nodup.map ?_ (hm (k, sub) (List.mem_cons_self _ _))
      intro a b hab
      injection hab
    · exact ih hkrest (fun p hp => hm p (List.mem_cons_of_mem _ hp))
    · intro x hx1 hx2
      rcases List.mem_map.mp hx1 with ⟨q, hq, rfl⟩
      rcases (mem_keyPathsFolders rest (k :: q)).mp hx2 with ⟨p, hp, q', hq', heq⟩
      have hk : p.1 = k := by
        injection heq with h1 h2
        exact h1.symm
      have hmem : p.1 ∈ rest.map Prod.fst := List.mem_map_of_mem Prod.fst hp
      rw [hk] at hmem
      exact hknot hmem

end MetaGen

namespace MetaGen

theorem keyPaths_nodup_of_wf : ∀ d : Dir, Wf d → (Dir.keyPaths d).Nodup := by
  intro d
  induction d using Dir.inductionOn with
  | h files folders pp de da ic ih =>
    intro hwf
    rcases Wf_inv hwf with ⟨nodup, keys, child⟩
    simp only [Dir.keyPaths]
    rw [List.nodup_cons]
    constructor
    · intro hmem
      rcases (mem_keyPathsFolders folders []).mp hmem with ⟨p, hp, q, hq, habs⟩
      exact absurd habs (by simp)
    · exact keyPathsFolders_nodup folders nodup (fun p hp => ih p hp (child p hp))

theorem foldl_addAsset_wf_keyPaths (fi : List FolderAnnotation) (env : String) :
    ∀ (assets : List (String × String)) (d : Dir), Wf d →
      Wf (List.foldl (addAsset fi env) d assets) ∧
      (Dir.keyPaths (List.foldl (addAsset fi env) d assets)).toFinset =
        assets.foldl
          (fun acc asset =>
            if isValidFile asset.2 asset.1 then acc ∪ (dirsOfPath asset.1).toFinset else acc)
          ((Dir.keyPaths d).toFinset) := by
  intro assets
  induction assets with
  | nil =>
    intro d hwf
    exact ⟨hwf, rfl⟩
  | cons a rest ih =>
    intro d hwf
    simp only [List.foldl_cons]
    by_cases hv : isValidFile a.2 a.1 = true
    · have haddEq : addAsset fi env d a =
          insertFile fi [""] (fileSegs a.1).1 d
            (FileObject.mk (fileSegs a.1).2 (getFileDescription a.2 env)) := by
        simp [addAsset, hv]
      obtain ⟨hwf1, hset1⟩ :=
        insertFile_wf_keyPaths fi (fileSegs a.1).1 [""] d
          (FileObject.mk (fileSegs a.1).2 (getFileDescription a.2 env)) hwf
          (fileSegs_noSlash a.1)
      rw [haddEq]
      obtain ⟨hwf2, hset2⟩ := ih _ hwf1
      refine ⟨hwf2, ?_⟩
      rw [hset2, hset1, if_pos hv]
      rfl
    · have haddEq : addAsset fi env d a = d := by simp [addAsset, hv]
      rw [haddEq]
      obtain ⟨hwf2, hset2⟩ := ih d hwf
      refine ⟨hwf2, ?_⟩
      rw [hset2, if_neg hv]

theorem generateDirectoryObject_wf_keyPaths (assets : List (String × String))
    (pd pic env : String) (fi : List FolderAnnotation) :
    Wf (generateDirectoryObject assets pd pic fi env) ∧
    (Dir.keyPaths (generateDirectoryObject assets pd pic fi env)).toFinset =
      impliedDirsValid assets := by
  unfold generateDirectoryObject impliedDirsValid
  have h0 : Wf (Dir.mk [] [] "/" pd "" pic) := Wf_leaf _ _ _ _ _
  have hmain := foldl_addAsset_wf_keyPaths fi env assets _ h0
  have hinit : (Dir.keyPaths (Dir.mk [] [] "/" pd "" pic)).toFinset =
      ({[]} : Finset (List String)) := by
    simp [Dir.keyPaths, keyPathsFolders]
  rw [hinit] at hmain
  exact hmain

/-- C1 (amended): the number of generated metadata documents equals the
number of distinct directories implied by the paths of the VALID artifacts
(those not skipped for their extension or ignore marker), root included and
each directory counted exactly once. -/
theorem document_count_eq_valid_implied_dirs (assets : List (String × String))
    (pd pic env pkg : String) (fi : List FolderAnnotation) :
    (generateMetaJson (generateDirectoryObject assets pd pic fi env) pkg).length =
      (impliedDirsValid assets).card := by
  obtain ⟨hwf, hset⟩ := generateDirectoryObject_wf_keyPaths assets pd pic env fi
  rw [generateMetaJson_length, ← keyPaths_length, ← hset,
    List.toFinset_card_of_nodup (keyPaths_nodup_of_wf _ hwf)]

end MetaGen

namespace MetaGen

/-! ### Document emission order (claim C8) -/

theorem genMeta_paths_expand (d : Dir) (nm : String) :
    (generateMetaJson d nm).map MetaInfo.path =
      d.parentPath ::
        (generateMetaJsonFolders (jsObjKeys d.folders)).map MetaInfo.path := by
  rcases d with ⟨files, folders, pp, de, da, ic⟩
  rw [generateMetaJson_eq]
  simp only [List.map_cons, Dir.parentPath, Dir.folders]

theorem mem_genFoldersPaths : ∀ (fl : List (String × Dir)) (p : String),
    p ∈ (generateMetaJsonFolders fl).map MetaInfo.path ↔
      ∃ e ∈ fl, p ∈ (generateMetaJson e.2 e.1).map MetaInfo.path := by
  intro fl
  induction fl with
  | nil => intro p; rw [generateMetaJsonFolders_nil]; simp
  | cons e rest ih =>
    intro p
    rcases e with ⟨k, sub⟩
    rw [generateMetaJsonFolders_cons]
    simp only [List.map_append, List.mem_append, ih, List.mem_cons]
    constructor
    · rintro (⟨e', he', hp⟩ | hp)
      · exact ⟨e', Or.inr he', hp⟩
      · exact ⟨(k, sub), Or.inl rfl, hp⟩
    · rintro ⟨e', he' | he', hp⟩
      · subst he'
        exact Or.inr hp
      · exact Or.inl ⟨e', he', hp⟩

theorem genFolders_block : ∀ (fl : List (String × Dir)) (e : String × Dir), e ∈ fl →
    ∃ X Y, generateMetaJsonFolders fl = X ++ generateMetaJson e.2 e.1 ++ Y := by
  intro fl
  induction fl with
  | nil => intro e he; exact absurd he (List.not_mem_nil e)
  | cons q rest ih =>
    intro e he
    rcases q with ⟨k, sub⟩
    rcases List.mem_cons.mp he with rfl | he'
    · exact ⟨generateMetaJsonFolders rest, [], by rw [generateMetaJsonFolders_cons]; simp⟩
    · rcases ih e he' with ⟨X, Y, hXY⟩
      refine ⟨X, Y ++ generateMetaJson sub k, ?_⟩
      rw [generateMetaJsonFolders_cons, hXY]
      simp only [List.append_assoc]

theorem block_paths_sublist {fl : List (String × Dir)} {e : String × Dir} (he : e ∈ fl)
    {l : List String}
    (h : List.Sublist l ((generateMetaJson e.2 e.1).map MetaInfo.path)) :
    List.Sublist l ((generateMetaJsonFolders fl).map MetaInfo.path) := by
  obtain ⟨X, Y, hXY⟩ := genFolders_block fl e he
  rw [hXY, List.append_assoc]
  simp only [List.map_append]
  refine h.trans ?_
  refine (List.sublist_append_left _ (Y.map MetaInfo.path)).trans ?_
  exact List.sublist_append_right _ _

theorem genMeta_paths_extend : ∀ d : Dir, Wf d → ∀ (nm p : String),
    p ∈ (generateMetaJson d nm).map MetaInfo.path →
    (Dir.parentPath d).data <+: p.data := by
  intro d
  induction d using Dir.inductionOn with
  | h files folders pp de da ic ih =>
    intro hwf nm p hp
    rcases Wf_inv hwf with ⟨nodup, keys, child⟩
    rw [genMeta_paths_expand] at hp
    rcases List.mem_cons.mp hp with rfl | hp
    · exact ⟨[], by simp [Dir.parentPath]⟩
    · rcases (mem_genFoldersPaths _ p).mp hp with ⟨e, he, hpe⟩
      have he' : e ∈ folders := mem_jsObjKeys.mp he
      have hsub := ih e he' (child e he') e.1 p hpe
      have hpe' : Dir.parentPath e.2 = pp ++ e.1 ++ "/" := (keys e he').2
      rw [hpe'] at hsub
      refine List.IsPrefix.trans ?_ hsub
      refine ⟨(e.1 ++ "/").data, ?_⟩
      rw [show (pp ++ e.1 ++ "/") = pp ++ (e.1 ++ "/") from by rw [String.append_assoc]]
      simp [Dir.parentPath, String.data_append]

end MetaGen

namespace MetaGen

theorem preTotal : ∀ (p l₁ l₂ : List Char), l₁ <+: p → l₂ <+: p → l₁ <+: l₂ ∨ l₂ <+: l₁ := by
  intro p
  induction p with
  | nil =>
    intro l₁ l₂ h₁ _
    rcases h₁ with ⟨t, ht⟩
    rcases List.append_eq_nil.mp ht with ⟨rfl, _⟩
    exact Or.inl ⟨l₂, rfl⟩
  | cons a p ih =>
    intro l₁ l₂ h₁ h₂
    cases l₁ with
    | nil => exact Or.inl ⟨l₂, rfl⟩
    | cons x xs =>
      cases l₂ with
      | nil => exact Or.inr ⟨x :: xs, rfl⟩
      | cons y ys =>
        rcases h₁ with ⟨t₁, ht₁⟩
        rcases h₂ with ⟨t₂, ht₂⟩
        rw [List.cons_append] at ht₁ ht₂
        injection ht₁ with hx hxs
        injection ht₂ with hy hys
        subst hx
        rcases ih xs ys ⟨t₁, hxs⟩ ⟨t₂, hys⟩ with ⟨u, hu⟩ | ⟨u, hu⟩
        · exact Or.inl ⟨u, by rw [List.cons_append, hu, hy]⟩
        · exact Or.inr ⟨u, by rw [List.cons_append, hu, ← hy]⟩

theorem slashKey_eq : ∀ (x y t u : List Char), '/' ∉ x → '/' ∉ y →
    x ++ '/' :: t = y ++ '/' :: u → x = y ∧ t = u := by
  intro x
  induction x with
  | nil =>
    intro y t u _ hy h
    cases y with
    | nil =>
      simp only [List.nil_append] at h
      injection h with _ h2
      exact ⟨rfl, h2⟩
    | cons b y' =>
      simp only [List.nil_append, List.cons_append] at h
      injection h with hb _
      exact (hy (by rw [hb]; exact List.mem_cons_self b y')).elim
  | cons a x' ih =>
    intro y t u hx hy h
    cases y with
    | nil =>
      simp only [List.cons_append, List.nil_append] at h
      injection h with ha _
      exact (hx (by rw [← ha]; exact List.mem_cons_self a x')).elim
    | cons b y' =>
      simp only [List.cons_append] at h
      injection h with hab h2
      have hx' : '/' ∉ x' := fun hm => hx (List.mem_cons_of_mem a hm)
      have hy' : '/' ∉ y' := fun hm => hy (List.mem_cons_of_mem b hm)
      rcases ih y' t u hx' hy' h2 with ⟨h3, h4⟩
      exact ⟨by rw [hab, h3], h4⟩

theorem key_pre_eq (R k₁ k₂ : String) (p : List Char)
    (hn₁ : noSlash k₁) (hn₂ : noSlash k₂)
    (h₁ : (R ++ k₁ ++ "/").data <+: p) (h₂ : (R ++ k₂ ++ "/").data <+: p) : k₁ = k₂ := by
  have hd : ∀ k : String, (R ++ k ++ "/").data = R.data ++ (k.data ++ '/' :: []) := by
    intro k
    rw [String.data_append, String.data_append]
    rw [List.append_assoc]
  rw [hd k₁] at h₁
  rw [hd k₂] at h₂
  rcases preTotal p _ _ h₁ h₂ with ⟨t, ht⟩ | ⟨t, ht⟩
  · rw [List.append_assoc, List.append_assoc] at ht
    have ht' := List.append_cancel_left ht
    rw [List.cons_append, List.nil_append] at ht'
    exact str_ext (slashKey_eq _ _ _ _ hn₁ hn₂ ht').1
  · rw [List.append_assoc, List.append_assoc] at ht
    have ht' := List.append_cancel_left ht
    rw [List.cons_append, List.nil_append] at ht'
    exact (str_ext (slashKey_eq _ _ _ _ hn₂ hn₁ ht').1).symm

theorem entry_unique : ∀ (fl : List (String × Dir)), (fl.map Prod.fst).Nodup →
    ∀ (k : String) (s₁ s₂ : Dir), (k, s₁) ∈ fl → (k, s₂) ∈ fl → s₁ = s₂ := by
  intro fl
  induction fl with
  | nil => intro _ k s₁ s₂ h₁ _; exact absurd h₁ (List.not_mem_nil _)
  | cons e rest ih =>
    intro hnd k s₁ s₂ h₁ h₂
    rcases e with ⟨k', d'⟩
    simp only [List.map_cons, List.nodup_cons] at hnd
    rcases List.mem_cons.mp h₁ with he₁ | he₁
    · rcases List.mem_cons.mp h₂ with he₂ | he₂
      · exact congrArg Prod.snd (he₁.trans he₂.symm)
      · injection he₁ with hk hd
        exact absurd (hk ▸ List.mem_map_of_mem Prod.fst he₂) hnd.1
    · rcases List.mem_cons.mp h₂ with he₂ | he₂
      · injection he₂ with hk hd
        exact absurd (hk ▸ List.mem_map_of_mem Prod.fst he₁) hnd.1
      · exact ih hnd.2 k s₁ s₂ he₁ he₂

end MetaGen

namespace MetaGen

/-- In the emitted document list of a well-formed tree, whenever one path is a
strict prefix of another, the shorter one is emitted first. -/
theorem genMeta_pre_order : ∀ d : Dir, Wf d → ∀ (nm p₁ p₂ : String),
    p₁ ∈ (generateMetaJson d nm).map MetaInfo.path →
    p₂ ∈ (generateMetaJson d nm).map MetaInfo.path →
    p₁.data <+: p₂.data → p₁ ≠ p₂ →
    List.Sublist [p₁, p₂] ((generateMetaJson d nm).map MetaInfo.path) := by
  intro d
  induction d using Dir.inductionOn with
  | h files folders pp de da ic ih =>
    intro hwf nm p₁ p₂ h1 h2 hpre hne
    rcases Wf_inv hwf with ⟨nodup, keys, child⟩
    rw [genMeta_paths_expand] at h1 h2 ⊢
    simp only [Dir.parentPath, Dir.folders] at h1 h2 ⊢
    rcases List.mem_cons.mp h1 with h1h | h1t
    · rcases List.mem_cons.mp h2 with h2h | h2t
      · exact absurd (h1h.trans h2h.symm) hne
      · subst h1h
        exact List.cons_sublist_cons.mpr (List.singleton_sublist.mpr h2t)
    · obtain ⟨e₁, he₁, hp₁b⟩ := (mem_genFoldersPaths (jsObjKeys folders) p₁).mp h1t
      have he₁' : e₁ ∈ folders := mem_jsObjKeys.mp he₁
      have hw₁ := child e₁ he₁'
      have hk₁ := keys e₁ he₁'
      have pref₁ : (pp ++ e₁.1 ++ "/").data <+: p₁.data := by
        have hx := genMeta_paths_extend e₁.2 hw₁ e₁.1 p₁ hp₁b
        rwa [hk₁.2] at hx
      rcases List.mem_cons.mp h2 with h2h | h2t
      · exfalso
        have hp2 : (pp ++ e₁.1 ++ "/").data <+: pp.data := h2h ▸ pref₁.trans hpre
        have hlen := hp2.length_le
        rw [String.data_append, String.data_append, List.length_append,
          List.length_append] at hlen
        have hone : ("/" : String).data.length = 1 := rfl
        rw [hone] at hlen
        omega
      · obtain ⟨e₂, he₂, hp₂b⟩ := (mem_genFoldersPaths (jsObjKeys folders) p₂).mp h2t
        have he₂' : e₂ ∈ folders := mem_jsObjKeys.mp he₂
        have hw₂ := child e₂ he₂'
        have hk₂ := keys e₂ he₂'
        have pref₂ : (pp ++ e₂.1 ++ "/").data <+: p₂.data := by
          have hx := genMeta_paths_extend e₂.2 hw₂ e₂.1 p₂ hp₂b
          rwa [hk₂.2] at hx
        have hkeq : e₁.1 = e₂.1 :=
          key_pre_eq pp e₁.1 e₂.1 p₂.data hk₁.1 hk₂.1 (pref₁.trans hpre) pref₂
        have hsubeq : e₁.2 = e₂.2 := by
          refine entry_unique folders nodup e₁.1 e₁.2 e₂.2 ?_ ?_
          · rw [Prod.mk.eta]; exact he₁'
          · rw [hkeq, Prod.mk.eta]; exact he₂'
        have heq : e₁ = e₂ := Prod.ext hkeq hsubeq
        have hp₂b' : p₂ ∈ (generateMetaJson e₁.2 e₁.1).map MetaInfo.path := by
          rw [heq]; exact hp₂b
        have hsl := ih e₁ he₁' hw₁ e₁.1 p₁ p₂ hp₁b hp₂b' hpre hne
        exact (block_paths_sublist he₁ hsl).cons pp

/-- The heads of the sibling blocks: the reversed folder list of `fl`, as
paths, is a sublist of the paths emitted for `fl`. -/
theorem genFolders_child_heads (pp : String) : ∀ (fl : List (String × Dir)),
    (∀ p ∈ fl, Dir.parentPath p.2 = pp ++ p.1 ++ "/") →
    List.Sublist (fl.reverse.map (fun e => pp ++ e.1 ++ "/"))
      ((generateMetaJsonFolders fl).map MetaInfo.path) := by
  intro fl
  induction fl with
  | nil => intro _; exact List.Sublist.refl _
  | cons e rest ih =>
    intro hpp
    rcases e with ⟨k, sub⟩
    rw [generateMetaJsonFolders_cons]
    simp only [List.reverse_cons, List.map_append, List.map_cons, List.map_nil]
    refine List.Sublist.append (ih fun p hp => hpp p (List.mem_cons_of_mem _ hp)) ?_
    have hhead : pp ++ k ++ "/" ∈ (generateMetaJson sub k).map MetaInfo.path := by
      rw [genMeta_paths_expand]
      rw [← hpp (k, sub) (List.mem_cons_self _ _)]
      exact List.mem_cons_self _ _
    exact List.singleton_sublist.mpr hhead

/-- Every node of a well-formed tree emits its children's documents in the
reverse of their `Object.keys` enumeration order. -/
theorem findNode_children_reversed : ∀ d : Dir, Wf d → ∀ (nm : String)
    (kp : List String) (n : Dir), findNode d kp = some n →
    List.Sublist (((jsObjKeys n.folders).reverse).map (fun e => n.parentPath ++ e.1 ++ "/"))
      ((generateMetaJson d nm).map MetaInfo.path) := by
  intro d
  induction d using Dir.inductionOn with
  | h files folders pp de da ic ih =>
    intro hwf nm kp n hfind
    rcases Wf_inv hwf with ⟨nodup, keys, child⟩
    cases kp with
    | nil =>
      injection hfind with hn
      subst hn
      rw [genMeta_paths_expand]
      simp only [Dir.parentPath, Dir.folders]
      exact (genFolders_child_heads pp (jsObjKeys folders)
        (fun p hp => (keys p (mem_jsObjKeys.mp hp)).2)).cons pp
    | cons j kpr =>
      simp only [findNode, Dir.folders] at hfind
      rcases hlk : lookupFolder folders j with _ | subj
      · rw [hlk] at hfind; exact absurd hfind (by simp)
      · rw [hlk] at hfind
        have hmem := lookupFolder_mem folders j subj hlk
        have hmem' : (j, subj) ∈ jsObjKeys folders := mem_jsObjKeys.mpr hmem
        have hsl := ih (j, subj) hmem (child _ hmem) j kpr n hfind
        rw [genMeta_paths_expand]
        exact (block_paths_sublist hmem' hsl).cons _

end MetaGen

namespace MetaGen

set_option maxRecDepth 40000 in
/-- C8 counterexample: `Object.keys` lists the integer-like child name `"0"`
before the insertion-ordered name `"b"`, so for the assets `b/x.js`, `0/y.js`
the children are discovered in order `b`, `0` but their documents are emitted
`/b/` then `/0/` — the discovery order itself, NOT its reverse as the claim
states. -/
theorem reverse_discovery_order_cex :
    ((generateDirectoryObject [("b/x.js", "c"), ("0/y.js", "c")] "" "" []
        "production").folders).map Prod.fst = ["b", "0"] ∧
    (generateMetaJson
        (generateDirectoryObject [("b/x.js", "c"), ("0/y.js", "c")] "" "" [] "production")
        "p").map MetaInfo.path = ["/", "/b/", "/0/"] ∧
    ¬ List.Sublist ["/0/", "/b/"] ["/", "/b/", "/0/"] :=
  ⟨by decide, by decide, by decide⟩

/-- C8 (amended): in the ordered list of {outputPath, documentText} pairs
produced by the generator, every directory's document appears before the
document of any of its descendants (a descendant's output path strictly
extends its ancestor's), and the documents of a node's children appear in
the reverse of the `Object.keys` enumeration order of the children —
integer-like names first in ascending numeric order, then the remaining
names in discovery (insertion) order. -/
theorem document_emission_order (assets : List (String × String))
    (pd pic env pkg : String) (fi : List FolderAnnotation) :
    (∀ p₁ p₂ : String,
        p₁ ∈ (generateMetaJson (generateDirectoryObject assets pd pic fi env) pkg).map
          MetaInfo.path →
        p₂ ∈ (generateMetaJson (generateDirectoryObject assets pd pic fi env) pkg).map
          MetaInfo.path →
        p₁.data <+: p₂.data → p₁ ≠ p₂ →
        List.Sublist [p₁, p₂]
          ((generateMetaJson (generateDirectoryObject assets pd pic fi env) pkg).map
            MetaInfo.path)) ∧
    (∀ (kp : List String) (n : Dir),
        findNode (generateDirectoryObject assets pd pic fi env) kp = some n →
        List.Sublist
          (((jsObjKeys n.folders).reverse).map (fun e => n.parentPath ++ e.1 ++ "/"))
          ((generateMetaJson (generateDirectoryObject assets pd pic fi env) pkg).map
            MetaInfo.path)) := by
  have hwf := (generateDirectoryObject_wf_keyPaths assets pd pic env fi).1
  exact ⟨fun p₁ p₂ h1 h2 h3 h4 => genMeta_pre_order _ hwf pkg p₁ p₂ h1 h2 h3 h4,
    fun kp n h => findNode_children_reversed _ hwf pkg kp n h⟩

set_option maxRecDepth 40000 in
/-- Witness for C8 (amended) at a build with an integer-like folder name:
the enumeration order of the children discovered as `b`, `0` is `0`, `b`,
the emission visits it reversed (`/b/` then `/0/`), and the root document
precedes every child document. -/
theorem document_emission_order_witness :
    List.Sublist ["/", "/0/"]
      ((generateMetaJson
          (generateDirectoryObject [("b/x.js", "c"), ("0/y.js", "c")] "" "" [] "production")
          "p").map MetaInfo.path) ∧
    List.Sublist
      ((jsObjKeys ((Dir.mk [] [("b", Dir.mk [FileObject.mk "x.js" ""] [] "/b/" "" "" ""),
            ("0", Dir.mk [FileObject.mk "y.js" ""] [] "/0/" "" "" "")]
          "/" "" "" "" : Dir).folders)).reverse.map
        (fun e =>
          (Dir.mk [] [("b", Dir.mk [FileObject.mk "x.js" ""] [] "/b/" "" "" ""),
              ("0", Dir.mk [FileObject.mk "y.js" ""] [] "/0/" "" "" "")]
            "/" "" "" "" : Dir).parentPath ++ e.1 ++ "/"))
      ((generateMetaJson
          (generateDirectoryObject [("b/x.js", "c"), ("0/y.js", "c")] "" "" [] "production")
          "p").map MetaInfo.path) := by
  constructor
  · exact (document_emission_order [("b/x.js", "c"), ("0/y.js", "c")] "" "" "production" "p"
      []).1 "/" "/0/" (by decide) (by decide) (by decide) (by decide)
  · exact (document_emission_order [("b/x.js", "c"), ("0/y.js", "c")] "" "" "production" "p"
      []).2 []
      (Dir.mk [] [("b", Dir.mk [FileObject.mk "x.js" ""] [] "/b/" "" "" ""),
          ("0", Dir.mk [FileObject.mk "y.js" ""] [] "/0/" "" "" "")] "/" "" "" "")
      (by rfl)

end MetaGen
